import Mathlib

/-
Verification of the query-repair core of the natural-language-to-MongoDB
bridge (src/sample.py): the repair function `fix_llm_query`, the
raw-response extractor in `generate_mongodb_query`, the dict-validation
step of `retrieve_and_present_data`, and the truthiness gate of `main`.

Strings are modelled as `List Char`.  The Python regular expressions of
`fix_llm_query` are modelled operationally, one dedicated function per
regex, following the exact matching semantics (anchoring, greediness and
the limited backtracking each pattern can perform).  `json.loads` and the
`eval` fallback are modelled as executable parsers/evaluators over the
fragment of JSON / Python literal expressions relevant to the program;
the Python character classes are modelled on their ASCII parts.
-/

/-- Python regex whitespace class `\s` (ASCII part): space, tab, newline,
carriage return, vertical tab, form feed. -/
def pws (c : Char) : Bool :=
  c = ' ' || c = '\t' || c = '\n' || c = '\r' || c = Char.ofNat 11 || c = Char.ofNat 12

/-- JSON whitespace accepted by `json.loads` between tokens. -/
def jws (c : Char) : Bool :=
  c = ' ' || c = '\t' || c = '\n' || c = '\r'

/-- Python regex word class `\w` (ASCII part): letters, digits, underscore. -/
def isWordChar (c : Char) : Bool :=
  ('a' ≤ c && c ≤ 'z') || ('A' ≤ c && c ≤ 'Z') || ('0' ≤ c && c ≤ '9') || c = '_'

/-- Decimal digit. -/
def isDigitChar (c : Char) : Bool :=
  '0' ≤ c && c ≤ '9'

/-- The single-quote character, written by code point to keep source plain. -/
def squote : Char := Char.ofNat 39

/-- A quote character as accepted by the regex class of quotes. -/
def isQuoteChar (c : Char) : Bool :=
  c = '"' || c = squote

/-- Values flowing through the pipeline: everything `json.loads` can
return, plus Python sets (from set displays reached by the `eval`
fallback) and opaque Python objects such as builtin functions. -/
inductive Value where
  | null
  | bool (b : Bool)
  | num (q : Rat)
  | str (s : List Char)
  | arr (elems : List Value)
  | dict (entries : List (List Char × Value))
  | pySet (elems : List Value)
  | obj (name : List Char)

mutual

/-- Boolean equality test for `Value`. -/
def Value.beq : Value → Value → Bool
  | .null, .null => true
  | .bool a, .bool b => a == b
  | .num a, .num b => a == b
  | .str a, .str b => a == b
  | .arr a, .arr b => Value.beqList a b
  | .dict a, .dict b => Value.beqEntries a b
  | .pySet a, .pySet b => Value.beqList a b
  | .obj a, .obj b => a == b
  | _, _ => false

/-- Elementwise `Value.beq` on lists. -/
def Value.beqList : List Value → List Value → Bool
  | [], [] => true
  | x :: xs, y :: ys => Value.beq x y && Value.beqList xs ys
  | _, _ => false

/-- Elementwise `Value.beq` on key/value entry lists. -/
def Value.beqEntries : List (List Char × Value) → List (List Char × Value) → Bool
  | [], [] => true
  | (k1, v1) :: xs, (k2, v2) :: ys => k1 == k2 && Value.beq v1 v2 && Value.beqEntries xs ys
  | _, _ => false

end

/-- The value is a Python dict (`isinstance(x, dict)`). -/
def isDict : Value → Bool
  | .dict _ => true
  | _ => false

/-! ### The `find:` unwrap regex

Models `re.match(r'^\s*["\']?find["\']?\s*:\s*({.*})\s*$', raw_query,
re.DOTALL)` followed by `raw_query = match.group(1)`.  `re.match` anchors
at the start; with `re.DOTALL` the group `({.*})` is greedy across
newlines, so group 1 runs from the first `{` after the colon to the last
`}` whose suffix is entirely whitespace; if no such `}` exists the match
fails.  The optional quotes commit deterministically: if a quote is
present but the continuation fails, the empty alternative also fails,
because the quote character can neither start `find` nor be `:`. -/

/-- Drop one leading quote character if present (the `["\']?` pieces). -/
def dropQuote : List Char → List Char
  | c :: cs => if isQuoteChar c then cs else c :: cs
  | [] => []

/-- Consume one expected character. -/
def expectChar (c : Char) : List Char → Option (List Char)
  | d :: t => if d = c then some t else none
  | [] => none

/-- Group 1 of the `find:` regex when the whole string matches. -/
def findUnwrapBody (s : List Char) : Option (List Char) :=
  match expectChar 'f' (dropQuote (s.dropWhile pws)) with
  | none => none
  | some t1 =>
    match expectChar 'i' t1 with
    | none => none
    | some t2 =>
      match expectChar 'n' t2 with
      | none => none
      | some t3 =>
        match expectChar 'd' t3 with
        | none => none
        | some s2 =>
          match expectChar ':' ((dropQuote s2).dropWhile pws) with
          | none => none
          | some s4 =>
            let rest := s4.dropWhile pws
            let r2 := rest.reverse.dropWhile pws
            if rest.headD ' ' = '{' ∧ r2.headD ' ' = '}' then some r2.reverse else none

/-- Step 1 of the string repair: replace the string by group 1 when the
`find:` wrapper regex matches, otherwise leave it unchanged. -/
def findUnwrap (s : List Char) : List Char :=
  match findUnwrapBody s with
  | some body => body
  | none => s

/-! ### The comma-without-colon repair regex

Models `re.sub(r'(\{)\s*["\']?(\$\w+)["\']?\s*,\s*([^\}]+)\}',
r'\1"\2":\3}', raw_query)`.  `re.sub` rewrites each non-overlapping
occurrence scanning left to right.  After the comma, `\s*` is greedy;
when everything up to the next `}` is whitespace, it backtracks by one
character so that `([^\}]+)` can take that single character. -/

/-- Attempt the comma-repair match at a position starting with `{`;
returns the replacement text and the remaining input after the match. -/
def commaMatch (s : List Char) : Option (List Char × List Char) :=
  match expectChar '{' s with
  | none => none
  | some cs =>
    match expectChar '$' (dropQuote (cs.dropWhile pws)) with
    | none => none
    | some t =>
      let op := t.takeWhile isWordChar
      if op = [] then none
      else
        match expectChar ',' ((dropQuote (t.drop op.length)).dropWhile pws) with
        | none => none
        | some u =>
          let v := u.takeWhile (fun c => ¬ c = '}')
          if v = [] then none
          else if v.length = u.length then none
          else
            let g3 := if (v.dropWhile pws) = [] then [v.getLastD ' '] else v.dropWhile pws
            some ('{' :: '"' :: '$' :: op ++ '"' :: ':' :: g3 ++ ['}'], u.drop (v.length + 1))

/-- Fuelled left-to-right scan applying `commaMatch` at each position,
as `re.sub` does; the fuel is an upper bound on the number of positions
visited, and each step consumes at least one character. -/
def commaFixGo : Nat → List Char → List Char
  | 0, s => s
  | _ + 1, [] => []
  | n + 1, c :: cs =>
    match commaMatch (c :: cs) with
    | some (repl, rest) => repl ++ commaFixGo n rest
    | none => c :: commaFixGo n cs

/-- Step 2 of the string repair: the comma-without-colon rewrite. -/
def commaFix (s : List Char) : List Char :=
  commaFixGo s.length s

/-! ### The trailing-comma removal regex

Models `re.sub(r',(\s*[}\]])', r'\1', raw_query)`: each comma followed by
whitespace and a closing `}` or `]` is deleted (the whitespace and the
bracket are kept), scanning left to right and continuing after each
match. -/

/-- Fuelled scan for the trailing-comma removal. -/
def stripTrailingGo : Nat → List Char → List Char
  | 0, s => s
  | _ + 1, [] => []
  | n + 1, c :: cs =>
    if c = ',' then
      let w := cs.takeWhile pws
      match cs.drop w.length with
      | b :: rest =>
        if b = '}' || b = ']' then w ++ b :: stripTrailingGo n rest
        else ',' :: stripTrailingGo n cs
      | [] => ',' :: stripTrailingGo n cs
    else c :: stripTrailingGo n cs

/-- Step 3 of the string repair: remove trailing commas before `}`/`]`. -/
def stripTrailingCommas (s : List Char) : List Char :=
  stripTrailingGo s.length s

/-- The character map underlying `raw_query.replace('\n', ' ')`. -/
def nlToSpace (c : Char) : Char :=
  if c = '\n' then ' ' else c

/-- Step 4 of the string repair: `raw_query.replace('\n', ' ')`. -/
def replaceNewlines (s : List Char) : List Char :=
  s.map nlToSpace

/-- The complete string-rewriting pipeline of `fix_llm_query` applied
before the parse attempts, in source order: `find:` unwrap, comma
repair, trailing-comma removal, newline flattening. -/
def repairString (s : List Char) : List Char :=
  replaceNewlines (stripTrailingCommas (commaFix (findUnwrap s)))

/-! ### Strict JSON parsing (`json.loads`)

An executable model of `json.loads` on the JSON fragment the program
exercises: objects, arrays, double-quoted strings with escapes, numbers,
`true`/`false`/`null`.  Numbers are represented exactly as rationals.
Deviations, all in corners no claim touches: the model rejects the
nonstandard `NaN`/`Infinity` extensions and `\u` escapes in the
surrogate range. -/

/-- Value of a hex digit. -/
def hexVal (c : Char) : Option Nat :=
  if '0' ≤ c && c ≤ '9' then some (c.toNat - 48)
  else if 'a' ≤ c && c ≤ 'f' then some (c.toNat - 87)
  else if 'A' ≤ c && c ≤ 'F' then some (c.toNat - 55)
  else none

/-- Natural number denoted by a digit run. -/
def digitsToNat (ds : List Char) : Nat :=
  ds.foldl (fun a c => a * 10 + (c.toNat - 48)) 0

/-- Parse the body of a JSON string after the opening `"`; returns the
decoded characters and the input after the closing `"`. -/
def parseJStr : Nat → List Char → Option (List Char × List Char)
  | 0, _ => none
  | _ + 1, [] => none
  | n + 1, c :: cs =>
    if c = '"' then some ([], cs)
    else if c = '\\' then
      match cs with
      | e :: cs2 =>
        if e = '"' || e = '\\' || e = '/' then
          (parseJStr n cs2).map (fun p => (e :: p.1, p.2))
        else if e = 'b' then (parseJStr n cs2).map (fun p => (Char.ofNat 8 :: p.1, p.2))
        else if e = 'f' then (parseJStr n cs2).map (fun p => (Char.ofNat 12 :: p.1, p.2))
        else if e = 'n' then (parseJStr n cs2).map (fun p => ('\n' :: p.1, p.2))
        else if e = 'r' then (parseJStr n cs2).map (fun p => ('\r' :: p.1, p.2))
        else if e = 't' then (parseJStr n cs2).map (fun p => ('\t' :: p.1, p.2))
        else if e = 'u' then
          match cs2 with
          | h1 :: h2 :: h3 :: h4 :: cs3 =>
            match hexVal h1, hexVal h2, hexVal h3, hexVal h4 with
            | some a, some b, some c3, some d =>
              let code := ((a * 16 + b) * 16 + c3) * 16 + d
              if 55296 ≤ code && code ≤ 57343 then none
              else (parseJStr n cs3).map (fun p => (Char.ofNat code :: p.1, p.2))
            | _, _, _, _ => none
          | _ => none
        else none
      | [] => none
    else if c.toNat < 32 then none
    else (parseJStr n cs).map (fun p => (c :: p.1, p.2))

/-- Parse a JSON number at the head of the input: `-?(0|[1-9][0-9]*)`
with optional fraction and exponent, built with exact integer
arithmetic. -/
def parseJNum (s : List Char) : Option (Value × List Char) :=
  let sign : Int := match s with | '-' :: _ => -1 | _ => 1
  let s1 := match s with | '-' :: r => r | _ => s
  let ds := s1.takeWhile isDigitChar
  if ds = [] then none
  else if 1 < ds.length && ds.headD '0' = '0' then none
  else
    let s2 := s1.drop ds.length
    let fr := match s2 with
      | '.' :: r2 =>
        let fs := r2.takeWhile isDigitChar
        if fs = [] then none else some (fs, r2.drop fs.length)
      | _ => some ([], s2)
    match fr with
    | none => none
    | some (fs, s3) =>
      let ex := match s3 with
        | 'e' :: r3 | 'E' :: r3 =>
          let esign : Int := match r3 with | '-' :: _ => -1 | '+' :: _ => 1 | _ => 1
          let r4 := match r3 with | '-' :: r5 => r5 | '+' :: r5 => r5 | _ => r3
          let es := r4.takeWhile isDigitChar
          if es = [] then none else some (esign * digitsToNat es, r4.drop es.length)
        | _ => some ((0 : Int), s3)
      match ex with
      | none => none
      | some (e, s4) =>
        let mant : Int := sign * (digitsToNat ds * 10 ^ fs.length + digitsToNat fs)
        let q := if 0 ≤ e then mkRat (mant * 10 ^ e.toNat) (10 ^ fs.length)
                 else mkRat mant (10 ^ fs.length * 10 ^ (-e).toNat)
        some (.num q, s4)

/-- Insert a key into an object under construction with Python dict
semantics: an existing key keeps its position and gets the new value,
a new key is appended. -/
def insertKey (acc : List (List Char × Value)) (k : List Char) (v : Value) :
    List (List Char × Value) :=
  if acc.any (fun e => e.1 == k) then acc.map (fun e => if e.1 == k then (k, v) else e)
  else acc ++ [(k, v)]

/-- Parser state: a value, the members of an object being read, or the
elements of an array being read. -/
inductive JMode where
  | val
  | members (acc : List (List Char × Value))
  | elems (acc : List Value)

/-- Fuelled recursive-descent JSON parser; every recursive call consumes
input, so the fuel chosen in `jsonParse` never runs out. -/
def parseJ : Nat → JMode → List Char → Option (Value × List Char)
  | 0, _, _ => none
  | n + 1, .val, s =>
    match s with
    | '{' :: r =>
      let r1 := r.dropWhile jws
      match r1 with
      | '}' :: r2 => some (.dict [], r2)
      | _ => parseJ n (.members []) r1
    | '[' :: r =>
      let r1 := r.dropWhile jws
      match r1 with
      | ']' :: r2 => some (.arr [], r2)
      | _ => parseJ n (.elems []) r1
    | '"' :: r => (parseJStr (r.length + 1) r).map (fun p => (.str p.1, p.2))
    | 't' :: 'r' :: 'u' :: 'e' :: r => some (.bool true, r)
    | 'f' :: 'a' :: 'l' :: 's' :: 'e' :: r => some (.bool false, r)
    | 'n' :: 'u' :: 'l' :: 'l' :: r => some (.null, r)
    | _ => parseJNum s
  | n + 1, .members acc, s =>
    match s with
    | '"' :: r =>
      match parseJStr (r.length + 1) r with
      | some (key, r1) =>
        match r1.dropWhile jws with
        | ':' :: r2 =>
          match parseJ n .val (r2.dropWhile jws) with
          | some (v, r3) =>
            match r3.dropWhile jws with
            | ',' :: r4 => parseJ n (.members (insertKey acc key v)) (r4.dropWhile jws)
            | '}' :: r4 => some (.dict (insertKey acc key v), r4)
            | _ => none
          | none => none
        | _ => none
      | none => none
    | _ => none
  | n + 1, .elems acc, s =>
    match parseJ n .val s with
    | some (v, r) =>
      match r.dropWhile jws with
      | ',' :: r1 => parseJ n (.elems (acc ++ [v])) (r1.dropWhile jws)
      | ']' :: r1 => some (.arr (acc ++ [v]), r1)
      | _ => none
    | none => none

/-- Model of `json.loads`: parse one JSON value with surrounding
whitespace; anything else is a parse failure (an exception in the
code, caught by `fix_llm_query`). -/
def jsonParse (s : List Char) : Option Value :=
  match parseJ (2 * s.length + 4) .val (s.dropWhile jws) with
  | some (v, rest) => if rest.dropWhile jws = [] then some v else none
  | none => none

/-! ### The `eval(raw_query, {}, {})` fallback

Model of the permissive fallback of `fix_llm_query`.  Python's `eval`
with an empty globals dictionary inserts a reference to the `builtins`
module under `__builtins__`, so builtin names remain resolvable even
though the caller passed two empty dictionaries.  The model covers the
expression fragment relevant to the program: literals (numbers, strings
with either quote, `True`/`False`/`None`), list/dict/set displays,
parentheses, unary minus, names, and calls of builtin names; on
expressions outside the fragment the model reports a parse failure, as
`eval` does on a syntax error.  Dict keys are modelled for string keys,
the case the program exercises. -/

/-- Python expression AST for the modelled fragment. -/
inductive PyExpr where
  | num (q : Rat)
  | strLit (s : List Char)
  | boolLit (b : Bool)
  | noneLit
  | name (n : List Char)
  | listD (es : List PyExpr)
  | dictD (entries : List (PyExpr × PyExpr))
  | setD (es : List PyExpr)
  | call (f : PyExpr) (args : List PyExpr)
  | neg (e : PyExpr)

/-- First character of a Python identifier (ASCII). -/
def isIdentStart (c : Char) : Bool :=
  ('a' ≤ c && c ≤ 'z') || ('A' ≤ c && c ≤ 'Z') || c = '_'

/-- Parse the body of a Python string literal with the given quote
character; escaped quotes, backslashes and the common control escapes
are decoded, any other backslash pair is kept literally as Python
does. -/
def parsePyStr : Nat → Char → List Char → Option (List Char × List Char)
  | 0, _, _ => none
  | _ + 1, _, [] => none
  | n + 1, q, c :: cs =>
    if c = q then some ([], cs)
    else if c = '\\' then
      match cs with
      | e :: cs2 =>
        if e = '\\' || e = '"' || e = squote then
          (parsePyStr n q cs2).map (fun p => (e :: p.1, p.2))
        else if e = 'n' then (parsePyStr n q cs2).map (fun p => ('\n' :: p.1, p.2))
        else if e = 't' then (parsePyStr n q cs2).map (fun p => ('\t' :: p.1, p.2))
        else if e = 'r' then (parsePyStr n q cs2).map (fun p => ('\r' :: p.1, p.2))
        else (parsePyStr n q cs2).map (fun p => ('\\' :: e :: p.1, p.2))
      | [] => none
    else if c = '\n' then none
    else (parsePyStr n q cs).map (fun p => (c :: p.1, p.2))

/-- Parse a Python numeric literal (unsigned; unary minus is an
expression): digits with optional fraction, or a leading-dot fraction,
with optional exponent.  Multi-digit leading zeros are a syntax error as
in Python 3. -/
def parsePyNum (s : List Char) : Option (PyExpr × List Char) :=
  let ds := s.takeWhile isDigitChar
  let s2 := s.drop ds.length
  let fr := match s2 with
    | '.' :: r2 =>
      let fs := r2.takeWhile isDigitChar
      if ds = [] && fs = [] then none else some (fs, r2.drop fs.length)
    | _ => if ds = [] then none else some (([] : List Char), s2)
  match fr with
  | none => none
  | some (fs, s3) =>
    if 1 < ds.length && ds.headD '0' = '0' then none
    else
      let ex := match s3 with
        | 'e' :: r3 | 'E' :: r3 =>
          let esign : Int := match r3 with | '-' :: _ => -1 | _ => 1
          let r4 := match r3 with | '-' :: r5 => r5 | '+' :: r5 => r5 | _ => r3
          let es := r4.takeWhile isDigitChar
          if es = [] then none else some (esign * digitsToNat es, r4.drop es.length)
        | _ => some ((0 : Int), s3)
      match ex with
      | none => none
      | some (e, s4) =>
        let mant : Int := digitsToNat ds * 10 ^ fs.length + digitsToNat fs
        let q := if 0 ≤ e then mkRat (mant * 10 ^ e.toNat) (10 ^ fs.length)
                 else mkRat mant (10 ^ fs.length * 10 ^ (-e).toNat)
        some (.num q, s4)

/-- Parser state for Python expressions: a full expression, the postfix
call loop after an atom, call arguments, list elements, the first item
after `{` (dict or set not yet decided), further dict members, or
further set elements. -/
inductive PMode where
  | val
  | post (e : PyExpr)
  | args (f : PyExpr) (acc : List PyExpr)
  | listEl (acc : List PyExpr)
  | braceFirst
  | dictEl (acc : List (PyExpr × PyExpr))
  | setEl (acc : List PyExpr)

/-- Fuelled recursive-descent parser for the modelled Python expression
fragment. -/
def parsePy : Nat → PMode → List Char → Option (PyExpr × List Char)
  | 0, _, _ => none
  | n + 1, .val, s =>
    match s with
    | '-' :: r => (parsePy n .val (r.dropWhile pws)).map (fun p => (.neg p.1, p.2))
    | '[' :: r =>
      let r1 := r.dropWhile pws
      match r1 with
      | ']' :: r2 => parsePy n (.post (.listD [])) r2
      | _ =>
        match parsePy n (.listEl []) r1 with
        | some (e, r2) => parsePy n (.post e) r2
        | none => none
    | '{' :: r =>
      let r1 := r.dropWhile pws
      match r1 with
      | '}' :: r2 => parsePy n (.post (.dictD [])) r2
      | _ =>
        match parsePy n .braceFirst r1 with
        | some (e, r2) => parsePy n (.post e) r2
        | none => none
    | '(' :: r =>
      match parsePy n .val (r.dropWhile pws) with
      | some (e, r1) =>
        match r1.dropWhile pws with
        | ')' :: r2 => parsePy n (.post e) r2
        | _ => none
      | none => none
    | c :: r =>
      if c = '"' || c = squote then
        match parsePyStr (r.length + 1) c r with
        | some (t, r1) => parsePy n (.post (.strLit t)) r1
        | none => none
      else if isIdentStart c then
        let id := (c :: r).takeWhile (fun d => isWordChar d)
        let r1 := (c :: r).drop id.length
        if id = ("True".data) then parsePy n (.post (.boolLit true)) r1
        else if id = ("False".data) then parsePy n (.post (.boolLit false)) r1
        else if id = ("None".data) then parsePy n (.post .noneLit) r1
        else parsePy n (.post (.name id)) r1
      else
        match parsePyNum s with
        | some (e, r1) => parsePy n (.post e) r1
        | none => none
    | [] => none
  | n + 1, .post e, s =>
    match s.dropWhile pws with
    | '(' :: r =>
      let r1 := r.dropWhile pws
      match r1 with
      | ')' :: r2 => parsePy n (.post (.call e [])) r2
      | _ =>
        match parsePy n (.args e []) r1 with
        | some (e2, r2) => parsePy n (.post e2) r2
        | none => none
    | _ => some (e, s)
  | n + 1, .args f acc, s =>
    match parsePy n .val s with
    | some (a, r) =>
      match r.dropWhile pws with
      | ',' :: r1 => parsePy n (.args f (acc ++ [a])) (r1.dropWhile pws)
      | ')' :: r1 => some (.call f (acc ++ [a]), r1)
      | _ => none
    | none => none
  | n + 1, .listEl acc, s =>
    match parsePy n .val s with
    | some (a, r) =>
      match r.dropWhile pws with
      | ',' :: r1 =>
        let r2 := r1.dropWhile pws
        match r2 with
        | ']' :: r3 => some (.listD (acc ++ [a]), r3)
        | _ => parsePy n (.listEl (acc ++ [a])) r2
      | ']' :: r1 => some (.listD (acc ++ [a]), r1)
      | _ => none
    | none => none
  | n + 1, .braceFirst, s =>
    match parsePy n .val s with
    | some (a, r) =>
      match r.dropWhile pws with
      | ':' :: r1 =>
        match parsePy n .val (r1.dropWhile pws) with
        | some (b, r2) =>
          match r2.dropWhile pws with
          | ',' :: r3 =>
            let r4 := r3.dropWhile pws
            match r4 with
            | '}' :: r5 => some (.dictD [(a, b)], r5)
            | _ => parsePy n (.dictEl [(a, b)]) r4
          | '}' :: r3 => some (.dictD [(a, b)], r3)
          | _ => none
        | none => none
      | ',' :: r1 =>
        let r2 := r1.dropWhile pws
        match r2 with
        | '}' :: r3 => some (.setD [a], r3)
        | _ => parsePy n (.setEl [a]) r2
      | '}' :: r1 => some (.setD [a], r1)
      | _ => none
    | none => none
  | n + 1, .dictEl acc, s =>
    match parsePy n .val s with
    | some (a, r) =>
      match r.dropWhile pws with
      | ':' :: r1 =>
        match parsePy n .val (r1.dropWhile pws) with
        | some (b, r2) =>
          match r2.dropWhile pws with
          | ',' :: r3 =>
            let r4 := r3.dropWhile pws
            match r4 with
            | '}' :: r5 => some (.dictD (acc ++ [(a, b)]), r5)
            | _ => parsePy n (.dictEl (acc ++ [(a, b)])) r4
          | '}' :: r3 => some (.dictD (acc ++ [(a, b)]), r3)
          | _ => none
        | none => none
      | _ => none
    | none => none
  | n + 1, .setEl acc, s =>
    match parsePy n .val s with
    | some (a, r) =>
      match r.dropWhile pws with
      | ',' :: r1 =>
        let r2 := r1.dropWhile pws
        match r2 with
        | '}' :: r3 => some (.setD (acc ++ [a]), r3)
        | _ => parsePy n (.setEl (acc ++ [a])) r2
      | '}' :: r1 => some (.setD (acc ++ [a]), r1)
      | _ => none
    | none => none

/-- Parse a complete Python expression with surrounding whitespace;
`none` models a `SyntaxError` raised (and caught) in `fix_llm_query`. -/
def pyParse (s : List Char) : Option PyExpr :=
  match parsePy (2 * s.length + 4) .val (s.dropWhile pws) with
  | some (e, r) => if r.dropWhile pws = [] then some e else none
  | none => none

/-- Names looked up successfully by the `eval` fallback: because Python
inserts `__builtins__` into an empty globals dictionary, exactly the
builtin names are resolvable (a representative list of the builtin
module's names; no user binding exists beside them). -/
def pyBuiltinNames : List (List Char) :=
  ["len", "abs", "min", "max", "sum", "str", "int", "float", "bool", "list",
   "dict", "set", "tuple", "type", "print", "open", "eval", "exec", "id",
   "__import__", "range", "map", "filter", "sorted", "repr", "hash", "iter",
   "next", "zip", "ord", "chr", "vars", "dir", "globals", "locals",
   "getattr", "setattr", "input", "object", "bytes", "hex", "oct", "round",
   "divmod", "pow", "any", "all", "callable", "isinstance"].map String.data

/-- Name resolution inside `eval(raw_query, {}, {})`: builtin names
resolve to the builtin object, everything else raises `NameError`. -/
def evalName (n : List Char) : Option Value :=
  if n ∈ pyBuiltinNames then some (.obj n) else none

/-- Semantics of calling a builtin on evaluated arguments, for the calls
the model executes; other builtin calls are left undefined (`none`). -/
def callBuiltin (n : List Char) (args : List Value) : Option Value :=
  if n = ("len".data) then
    match args with
    | [.str s] => some (.num (mkRat s.length 1))
    | [.arr l] => some (.num (mkRat l.length 1))
    | [.dict m] => some (.num (mkRat m.length 1))
    | [.pySet l] => some (.num (mkRat l.length 1))
    | _ => none
  else none

/-- Combine a dict-display head entry with the dict of the remaining
entries, with Python semantics: a key occurring again later keeps the
first position but takes the later value. -/
def combineEntry (k : List Char) (v : Value) (m : List (List Char × Value)) :
    List (List Char × Value) :=
  match m.find? (fun e => e.1 == k) with
  | some (_, v2) => (k, v2) :: m.filter (fun e => ¬ e.1 == k)
  | none => (k, v) :: m

/-- Fuelled evaluation of a parsed expression under the environment of
`eval(raw_query, {}, {})`: literal displays build data, names resolve
through the injected builtins, calls of builtin names execute.  Dict
keys outside strings, calls of non-names and negation of non-numbers
are left undefined. -/
def evalPy : Nat → PyExpr → Option Value
  | 0, _ => none
  | _ + 1, .num q => some (.num q)
  | _ + 1, .strLit s => some (.str s)
  | _ + 1, .boolLit b => some (.bool b)
  | _ + 1, .noneLit => some .null
  | _ + 1, .name n => evalName n
  | n + 1, .neg e =>
    match evalPy n e with
    | some (.num q) => some (.num (-q))
    | _ => none
  | _ + 1, .listD [] => some (.arr [])
  | n + 1, .listD (e :: es) =>
    match evalPy n e, evalPy n (.listD es) with
    | some v, some (.arr vs) => some (.arr (v :: vs))
    | _, _ => none
  | _ + 1, .setD [] => some (.pySet [])
  | n + 1, .setD (e :: es) =>
    match evalPy n e, evalPy n (.setD es) with
    | some v, some (.pySet vs) => some (.pySet (v :: vs))
    | _, _ => none
  | _ + 1, .dictD [] => some (.dict [])
  | n + 1, .dictD ((k, v) :: ps) =>
    match evalPy n k, evalPy n v, evalPy n (.dictD ps) with
    | some (.str ks), some vv, some (.dict m) => some (.dict (combineEntry ks vv m))
    | _, _, _ => none
  | n + 1, .call (.name f) args =>
    if f ∈ pyBuiltinNames then
      match evalPy n (.listD args) with
      | some (.arr vs) => callBuiltin f vs
      | _ => none
    else none
  | _ + 1, .call _ _ => none

mutual

/-- Computable size of an expression, used as evaluation fuel. -/
def pySize : PyExpr → Nat
  | .num _ => 1
  | .strLit _ => 1
  | .boolLit _ => 1
  | .noneLit => 1
  | .name _ => 1
  | .neg e => pySize e + 1
  | .listD es => pySizeList es + 1
  | .setD es => pySizeList es + 1
  | .dictD ps => pySizePairs ps + 1
  | .call f args => pySize f + pySizeList args + 1

/-- Size of an expression list. -/
def pySizeList : List PyExpr → Nat
  | [] => 1
  | e :: es => pySize e + pySizeList es + 1

/-- Size of a key/value expression list. -/
def pySizePairs : List (PyExpr × PyExpr) → Nat
  | [] => 1
  | (k, v) :: ps => pySize k + pySize v + pySizePairs ps + 1

end

/-- The whole `eval(raw_query, {}, {})` fallback: parse, then evaluate;
`none` models any exception (caught by `fix_llm_query`).  The fuel
`pySize e + 1` dominates the recursion depth of `evalPy`, which loses
one fuel unit while moving to a strictly smaller expression. -/
def pyEvalStr (s : List Char) : Option Value :=
  match pyParse s with
  | some e => evalPy (pySize e + 1) e
  | none => none

mutual

/-- The expression is a pure data literal: no name resolution and no
call occurs anywhere inside it. -/
def isLiteralExpr : PyExpr → Bool
  | .num _ => true
  | .strLit _ => true
  | .boolLit _ => true
  | .noneLit => true
  | .name _ => false
  | .neg e => isLiteralExpr e
  | .listD es => isLiteralList es
  | .setD es => isLiteralList es
  | .dictD ps => isLiteralPairs ps
  | .call _ _ => false

/-- All expressions in the list are literals. -/
def isLiteralList : List PyExpr → Bool
  | [] => true
  | e :: es => isLiteralExpr e && isLiteralList es

/-- All keys and values in the list are literals. -/
def isLiteralPairs : List (PyExpr × PyExpr) → Bool
  | [] => true
  | (k, v) :: ps => isLiteralExpr k && isLiteralExpr v && isLiteralPairs ps

end

/-! ### `fix_llm_query` -/

/-- The `find` unwrap test of the dict branch: the first entry named
`find`, when its value is itself a dict (`"find" in raw_query and
isinstance(raw_query["find"], dict)`). -/
def getFindDict (m : List (List Char × Value)) : Option (List (List Char × Value)) :=
  match m.find? (fun e => e.1 == ("find".data)) with
  | some (_, .dict f) => some f
  | _ => none

/-- Model of `fix_llm_query`.  A dict input has a `find` key with dict
value unwrapped, otherwise is returned unchanged.  A string input is
rewritten by the regex pipeline, then parsed as JSON, then as a Python
literal expression via `eval`; if both fail, the rewritten string is
returned (the local variable has been reassigned by then).  Any other
input is returned unchanged. -/
def fixLlmQuery : Value → Value
  | .dict m =>
    match getFindDict m with
    | some f => .dict f
    | none => .dict m
  | .str s =>
    let t := repairString s
    match jsonParse t with
    | some v => v
    | none =>
      match pyEvalStr t with
      | some v => v
      | none => .str t
  | v => v

/-! ### Validation step of `retrieve_and_present_data`

Lines 117-119: after the string re-repair, the query is used only if it
is a dict; otherwise an error is printed and the function returns
without calling `collection.find`. -/

/-- The dict check guarding `collection.find`: `some q` means the find
operation is executed with `q`; `none` means the error path (message
printed, early return, no find call). -/
def validateFilter (query : Value) : Option Value :=
  if isDict query then some query else none

/-- The full entry of `retrieve_and_present_data` on the query argument:
a string is first re-repaired, then the dict check is applied. -/
def retrieveStep (mongodbQuery : Value) : Option Value :=
  let query := match mongodbQuery with
    | .str s => fixLlmQuery (.str s)
    | v => v
  validateFilter query

/-! ### The truthiness gate of `main` -/

/-- Python truthiness of a pipeline value (`if generated_query:`). -/
def pyTruthy : Value → Bool
  | .null => false
  | .bool b => b
  | .num q => ¬ q = 0
  | .str s => ¬ s = []
  | .arr l => ¬ l.isEmpty
  | .dict m => ¬ m.isEmpty
  | .pySet l => ¬ l.isEmpty
  | .obj _ => true

/-- Outcome of one loop iteration of `main` on the generated query. -/
inductive MainAction where
  | reportFailure
  | executeQuery (logged : Value)

/-- The decision `main` takes on `generated_query`: `generate_mongodb_query`
returns `none` on an exception, otherwise a value; a truthy value is
printed, logged and passed to `retrieve_and_present_data`, anything else
reaches the `else` branch that prints "Failed to generate a query." -/
def mainStep (generated : Option Value) : MainAction :=
  match generated with
  | some q => if pyTruthy q then .executeQuery q else .reportFailure
  | none => .reportFailure

/-! ### The raw-response extractor of `generate_mongodb_query`

Models the two `re.search` calls: first
`re.search(r"```(?:json)?\s*([\s\S]+?)```", raw_response)`, falling back
to `re.search(r"(\{[\s\S]+\})", raw_response)`, falling back to the raw
text.  The fence pattern is searched at each position left to right; at
a position starting with three backticks, the optional `json` tag is
consumed greedily (retrying without it if the rest fails), `\s*` is
greedy, and the lazy group takes the least one-or-more characters up to
the next closing fence — when the greedy `\s*` leaves no character for
the group, it backtracks by exactly one whitespace character. -/

/-- Index of the first occurrence of three consecutive backticks. -/
def findTriple : List Char → Option Nat
  | [] => none
  | c :: cs =>
    if c = '`' ∧ cs.take 2 = ['`', '`'] then some 0
    else (findTriple cs).map (· + 1)

/-- Match the fence pattern after the opening backticks and optional
tag: greedy `\s*`, then the lazy non-empty group, then the closing
fence.  Returns the group. -/
def fenceCore (r1 : List Char) : Option (List Char) :=
  let w := (r1.takeWhile pws).length
  match findTriple (r1.drop (w + 1)) with
  | some q => some ((r1.drop w).take (q + 1))
  | none =>
    if (r1.drop w).take 3 = ['`', '`', '`'] ∧ 1 ≤ w then some ((r1.drop (w - 1)).take 1)
    else none

/-- Match the fence pattern after the opening backticks: try with the
`json` tag consumed first, then without. -/
def fenceFrom (r : List Char) : Option (List Char) :=
  if r.take 4 = ['j', 's', 'o', 'n'] then
    match fenceCore (r.drop 4) with
    | some g => some g
    | none => fenceCore r
  else fenceCore r

/-- Left-to-right search for a position where the whole fence pattern
matches, as `re.search` does. -/
def fenceSearch : List Char → Option (List Char)
  | [] => none
  | c :: cs =>
    if c = '`' ∧ cs.take 2 = ['`', '`'] then
      match fenceFrom (cs.drop 2) with
      | some g => some g
      | none => fenceSearch cs
    else fenceSearch cs

/-- The fallback brace search `re.search(r"(\{[\s\S]+\})", text)`: the
leftmost position with a match is the first `{`, and the greedy group
runs to the last `}` of the text, provided at least one character lies
between them. -/
def braceExtract (s : List Char) : Option (List Char) :=
  let a := s.dropWhile (fun c => ¬ c = '{')
  let m := (a.reverse.dropWhile (fun c => ¬ c = '}')).reverse
  if 3 ≤ m.length then some m else none

/-- The extractor: fenced block group, else brace span, else the raw
text unchanged.  Total by construction — no exception can escape. -/
def extractResponse (raw : List Char) : List Char :=
  match fenceSearch raw with
  | some g => g
  | none =>
    match braceExtract raw with
    | some m => m
    | none => raw

/-! ### Equality helpers -/

mutual

/-- `Value.beq` is reflexive. -/
theorem Value.beq_refl : ∀ a : Value, Value.beq a a = true
  | .null => rfl
  | .bool b => by simp [Value.beq]
  | .num q => by simp [Value.beq]
  | .str s => by simp [Value.beq]
  | .arr l => by simpa [Value.beq] using Value.beqList_refl l
  | .dict m => by simpa [Value.beq] using Value.beqEntries_refl m
  | .pySet l => by simpa [Value.beq] using Value.beqList_refl l
  | .obj n => by simp [Value.beq]

/-- `Value.beqList` is reflexive. -/
theorem Value.beqList_refl : ∀ l, Value.beqList l l = true
  | [] => rfl
  | x :: xs => by
    simp only [Value.beqList, Bool.and_eq_true]
    exact ⟨Value.beq_refl x, Value.beqList_refl xs⟩

/-- `Value.beqEntries` is reflexive. -/
theorem Value.beqEntries_refl : ∀ l, Value.beqEntries l l = true
  | [] => rfl
  | (k, v) :: xs => by
    simp only [Value.beqEntries, Bool.and_eq_true]
    exact ⟨⟨by simp, Value.beq_refl v⟩, Value.beqEntries_refl xs⟩

end

/-- Distinct values are detected by a false `Value.beq`. -/
theorem Value.ne_of_beq_false {a b : Value} (h : Value.beq a b = false) : a ≠ b := by
  intro e
  subst e
  simp [Value.beq_refl] at h

/-! ### Claims C1 to C5 and C10 -/

/-- C1, counterexample.  The claim says the fallback "can only construct
data literals ... and can never resolve any external name or execute
code beyond literal construction".  On the input string `len("abc")`
the strict JSON parse fails and the fallback resolves the builtin name
`len` and executes the call, returning the number 3: the parsed
expression is a call of a name, not a literal. -/
theorem c1_counterexample :
    pyParse ("len(\"abc\")".data) =
      some (.call (.name ("len".data)) [.strLit ("abc".data)]) ∧
    isLiteralExpr (.call (.name ("len".data)) [.strLit ("abc".data)]) = false ∧
    jsonParse (repairString ("len(\"abc\")".data)) = none ∧
    fixLlmQuery (.str ("len(\"abc\")".data)) = .num 3 :=
  ⟨rfl, rfl, rfl, rfl⟩

/-- C1, amended.  The fallback `eval(raw_query, {}, {})` passes empty
globals and locals, but Python inserts the builtins into the empty
globals, so exactly the builtin names are resolvable — no user binding
exists beside them — and calls of builtins execute, as the repair of
`len("abc")` to the number 3 shows. -/
theorem c1_amended_builtins_only :
    (∀ n v, evalName n = some v → n ∈ pyBuiltinNames) ∧
    (∀ n, n ∉ pyBuiltinNames → evalName n = none) ∧
    jsonParse (repairString ("len(\"abc\")".data)) = none ∧
    fixLlmQuery (.str ("len(\"abc\")".data)) = .num 3 := by
  refine ⟨?_, ?_, rfl, rfl⟩
  · intro n v h
    by_cases hm : n ∈ pyBuiltinNames
    · exact hm
    · simp [evalName, hm] at h
  · intro n hm
    simp [evalName, hm]

/-- C1, witness for the amended theorem: the builtin name `len` is
resolved by the fallback environment. -/
theorem c1_witness : ("len".data) ∈ pyBuiltinNames :=
  c1_amended_builtins_only.1 ("len".data) (.obj ("len".data)) rfl

/-- C2, counterexample.  On the doubly wrapped dict
`{"find": {"find": {}}}` the core returns `{"find": {}}`, a mapping
whose top-level `find` key holds a mapping — the claimed invariant
fails. -/
theorem c2_counterexample :
    fixLlmQuery (.dict [(("find".data), Value.dict [(("find".data), Value.dict [])])]) =
      .dict [(("find".data), Value.dict [])] ∧
    (getFindDict [(("find".data), Value.dict [])]).isSome = true :=
  ⟨rfl, rfl⟩

/-- C2, amended.  The dict branch strips exactly one level of `find`
wrapping: a mapping returned by the core for a dict input has a
top-level `find` key with mapping value exactly when the input was
doubly wrapped, i.e. its `find` value is a mapping that itself has a
`find` key with mapping value. -/
theorem c2_amended_unwrap_once (m r : List (List Char × Value))
    (h : fixLlmQuery (.dict m) = .dict r) :
    (getFindDict r).isSome = true ↔
      ∃ f, getFindDict m = some f ∧ (getFindDict f).isSome = true := by
  simp only [fixLlmQuery] at h
  cases hm : getFindDict m with
  | none =>
    rw [hm] at h
    injection h with h2
    subst h2
    constructor
    · intro hs
      rw [hm] at hs
      exact Bool.noConfusion hs
    · rintro ⟨f, hf, _⟩
      exact Option.noConfusion hf
  | some f =>
    rw [hm] at h
    injection h with h2
    subst h2
    constructor
    · intro hs
      exact ⟨f, rfl, hs⟩
    · rintro ⟨f2, hf2, hs⟩
      injection hf2 with e
      subst e
      exact hs

/-- C2, witness for the amended theorem, at the doubly wrapped input of
the counterexample. -/
theorem c2_witness :
    (getFindDict [(("find".data), Value.dict [])]).isSome = true ↔
      ∃ f, getFindDict [(("find".data), Value.dict [(("find".data), Value.dict [])])] = some f ∧
        (getFindDict f).isSome = true :=
  c2_amended_unwrap_once _ _ rfl

/-- C3.  A string on which both parse attempts fail is returned as the
(rewritten) string, which is not a mapping; in particular the garbage
string "not a filter at all" is returned unchanged.  The validation
step of `retrieve_and_present_data` passes a mapping through unchanged
to the find call and rejects every non-mapping (`none`: error reported,
`collection.find` not executed). -/
theorem c3_garbage_rejected :
    (∀ s, jsonParse (repairString s) = none → pyEvalStr (repairString s) = none →
      fixLlmQuery (.str s) = .str (repairString s) ∧
        isDict (fixLlmQuery (.str s)) = false) ∧
    fixLlmQuery (.str ("not a filter at all".data)) = .str ("not a filter at all".data) ∧
    (∀ m, validateFilter (.dict m) = some (.dict m)) ∧
    (∀ v, isDict v = false → validateFilter v = none) := by
  refine ⟨?_, rfl, fun m => rfl, ?_⟩
  · intro s h1 h2
    have h : fixLlmQuery (.str s) = .str (repairString s) := by
      simp only [fixLlmQuery]
      rw [h1, h2]
    exact ⟨h, by rw [h]; rfl⟩
  · intro v hv
    unfold validateFilter
    rw [hv]
    rfl

/-- C3, witness: the garbage string of the claim, on which both parses
fail, yields a non-mapping. -/
theorem c3_witness :
    fixLlmQuery (.str ("not a filter at all".data)) =
      .str (repairString ("not a filter at all".data)) ∧
    isDict (fixLlmQuery (.str ("not a filter at all".data))) = false :=
  c3_garbage_rejected.1 ("not a filter at all".data) rfl rfl

/-- C4, counterexample.  The string `{"find": {"a": 1}}` is a
well-formed mapping string; the first repair parses it to the mapping
`{"find": {"a": 1}}` (the textual `find:` unwrap does not fire on a
braced object), but the second repair takes the dict branch and unwraps
the `find` key, so repairing twice differs from repairing once. -/
theorem c4_counterexample :
    fixLlmQuery (fixLlmQuery (.str ("\x7b\"find\": \x7b\"a\": 1\x7d\x7d".data))) ≠
      fixLlmQuery (.str ("\x7b\"find\": \x7b\"a\": 1\x7d\x7d".data)) :=
  Value.ne_of_beq_false rfl

/-- C4, amended.  Repairing an already-well-formed mapping string twice
yields the same mapping both times, provided the parsed mapping has no
top-level `find` key whose value is a mapping (otherwise the second
pass unwraps it). -/
theorem c4_amended_idempotent (s : List Char) (d : List (List Char × Value))
    (hj : jsonParse (repairString s) = some (.dict d))
    (hf : getFindDict d = none) :
    fixLlmQuery (fixLlmQuery (.str s)) = fixLlmQuery (.str s) := by
  have h1 : fixLlmQuery (.str s) = .dict d := by
    simp only [fixLlmQuery]
    rw [hj]
  rw [h1]
  simp only [fixLlmQuery]
  rw [hf]

/-- C4, witness: the repair of `{"a": 1}` is idempotent. -/
theorem c4_witness :
    fixLlmQuery (fixLlmQuery (.str ("\x7b\"a\": 1\x7d".data))) =
      fixLlmQuery (.str ("\x7b\"a\": 1\x7d".data)) :=
  c4_amended_idempotent ("\x7b\"a\": 1\x7d".data) [(("a".data), Value.num 1)] rfl rfl

/-- C5.  On dict input, a `find` key holding a mapping is unwrapped to
exactly that mapping, and a dict without such a key is returned
unchanged. -/
theorem c5_find_unwrap_dict :
    (∀ m f, getFindDict m = some f → fixLlmQuery (.dict m) = .dict f) ∧
    (∀ m, getFindDict m = none → fixLlmQuery (.dict m) = .dict m) := by
  constructor
  · intro m f h
    simp only [fixLlmQuery]
    rw [h]
  · intro m h
    simp only [fixLlmQuery]
    rw [h]

/-- C5, witness: unwrapping `{"find": {"a": 1}}` given as a dict yields
`{"a": 1}`, and a dict without a `find` key is unchanged. -/
theorem c5_witness :
    fixLlmQuery (.dict [(("find".data), Value.dict [(("a".data), Value.num 1)])]) =
      .dict [(("a".data), Value.num 1)] ∧
    fixLlmQuery (.dict [(("a".data), Value.num 1)]) = .dict [(("a".data), Value.num 1)] :=
  ⟨c5_find_unwrap_dict.1 _ _ rfl, c5_find_unwrap_dict.2 _ rfl⟩

/-- C10.  A falsy generated value — in particular the empty mapping,
which the validation step itself would accept — makes `main` report
"Failed to generate a query" without logging and without reaching the
find call. -/
theorem c10_falsy_rejected :
    (∀ v, pyTruthy v = false → mainStep (some v) = .reportFailure) ∧
    pyTruthy (.dict []) = false ∧
    validateFilter (.dict []) = some (.dict []) := by
  refine ⟨?_, by simp [pyTruthy], rfl⟩
  intro v h
  simp [mainStep, h]

/-- C10, witness: the empty mapping is reported as a generation
failure. -/
theorem c10_witness : mainStep (some (.dict [])) = MainAction.reportFailure :=
  c10_falsy_rejected.1 (.dict []) (by simp [pyTruthy])

/-! ### List helpers for the regex families -/

/-- Dropping while a predicate holds skips a prefix on which it holds
everywhere. -/
theorem dropWhile_append_of_all {p : Char → Bool} :
    ∀ {l r : List Char}, (∀ c ∈ l, p c = true) → (l ++ r).dropWhile p = r.dropWhile p := by
  intro l
  induction l with
  | nil => intro r _; rfl
  | cons c cs ih =>
    intro r h
    have hc : p c = true := h c (by simp)
    simp [List.dropWhile_cons, hc]
    exact ih (fun d hd => h d (by simp [hd]))

/-- Dropping while a predicate holds stops at a failing head. -/
theorem dropWhile_cons_of_false {p : Char → Bool} {c : Char} {l : List Char}
    (h : p c = false) : (c :: l).dropWhile p = c :: l := by
  simp [List.dropWhile_cons, h]

/-- Taking while a predicate holds collects exactly a prefix on which it
holds everywhere, up to a failing head. -/
theorem takeWhile_append_of_all {p : Char → Bool} :
    ∀ {l r : List Char}, (∀ c ∈ l, p c = true) → (l ++ r).takeWhile p = l ++ r.takeWhile p := by
  intro l
  induction l with
  | nil => intro r _; rfl
  | cons c cs ih =>
    intro r h
    have hc : p c = true := h c (by simp)
    simp [List.takeWhile_cons, hc]
    exact ih (fun d hd => h d (by simp [hd]))

/-- Taking while a predicate holds stops at a failing head. -/
theorem takeWhile_cons_of_false {p : Char → Bool} {c : Char} {l : List Char}
    (h : p c = false) : (c :: l).takeWhile p = [] := by
  simp [List.takeWhile_cons, h]

/-- A whitespace character is not a quote character. -/
theorem quote_not_pws {c : Char} (h : pws c = true) : isQuoteChar c = false := by
  by_cases h1 : c = '"'
  · subst h1; exact absurd h (by decide)
  · by_cases h2 : c = squote
    · subst h2; exact absurd h (by decide)
    · simp [isQuoteChar, h1, h2]

/-- `dropQuote` leaves a list alone when its head is whitespace or a
colon (prefixed by whitespace). -/
theorem dropQuote_pws_colon {w y : List Char} (hw : ∀ c ∈ w, pws c = true) :
    dropQuote (w ++ ':' :: y) = w ++ ':' :: y := by
  cases w with
  | nil => simp [dropQuote, isQuoteChar, squote]
  | cons c cs =>
    have := quote_not_pws (hw c (by simp))
    simp [dropQuote, this]
-- appended experimentally
theorem expectChar_cons_self (c : Char) (l : List Char) : expectChar c (c :: l) = some l := by
  simp [expectChar]

/-- The `find:` regex matches a whole string of the pattern shape and
group 1 is the brace-delimited body. -/
theorem findUnwrapBody_whole_match
    (w1 q1 q2 w2 w3 mid w4 : List Char)
    (hw1 : ∀ c ∈ w1, pws c = true) (hw2 : ∀ c ∈ w2, pws c = true)
    (hw3 : ∀ c ∈ w3, pws c = true) (hw4 : ∀ c ∈ w4, pws c = true)
    (hq1 : q1 = [] ∨ q1 = ['"'] ∨ q1 = [squote])
    (hq2 : q2 = [] ∨ q2 = ['"'] ∨ q2 = [squote]) :
    findUnwrapBody (w1 ++ (q1 ++ ('f' :: 'i' :: 'n' :: 'd' ::
      (q2 ++ (w2 ++ (':' :: (w3 ++ ('{' :: (mid ++ ('}' :: w4)))))))))) =
      some ('{' :: (mid ++ ['}'])) := by
  have hB : (dropQuote (q2 ++ (w2 ++ (':' :: (w3 ++ ('{' :: (mid ++ ('}' :: w4)))))))).dropWhile pws =
      ':' :: (w3 ++ ('{' :: (mid ++ ('}' :: w4)))) := by
    rcases hq2 with h | h | h <;> subst h
    · rw [List.nil_append, dropQuote_pws_colon hw2, dropWhile_append_of_all hw2,
        dropWhile_cons_of_false (by decide : pws ':' = false)]
    · rw [List.singleton_append,
        show dropQuote ('"' :: (w2 ++ (':' :: (w3 ++ ('{' :: (mid ++ ('}' :: w4))))))) =
          w2 ++ (':' :: (w3 ++ ('{' :: (mid ++ ('}' :: w4))))) from by
            simp [dropQuote, isQuoteChar],
        dropWhile_append_of_all hw2, dropWhile_cons_of_false (by decide : pws ':' = false)]
    · rw [List.singleton_append,
        show dropQuote (squote :: (w2 ++ (':' :: (w3 ++ ('{' :: (mid ++ ('}' :: w4))))))) =
          w2 ++ (':' :: (w3 ++ ('{' :: (mid ++ ('}' :: w4))))) from by
            simp [dropQuote, isQuoteChar],
        dropWhile_append_of_all hw2, dropWhile_cons_of_false (by decide : pws ':' = false)]
  have hA : dropQuote ((w1 ++ (q1 ++ ('f' :: 'i' :: 'n' :: 'd' ::
      (q2 ++ (w2 ++ (':' :: (w3 ++ ('{' :: (mid ++ ('}' :: w4)))))))))).dropWhile pws) =
      'f' :: 'i' :: 'n' :: 'd' ::
        (q2 ++ (w2 ++ (':' :: (w3 ++ ('{' :: (mid ++ ('}' :: w4))))))) := by
    rw [dropWhile_append_of_all hw1]
    rcases hq1 with h | h | h <;> subst h
    · rw [List.nil_append, dropWhile_cons_of_false (by decide : pws 'f' = false)]
      simp [dropQuote, isQuoteChar, squote]
    · rw [List.singleton_append, dropWhile_cons_of_false (by decide : pws '"' = false)]
      simp [dropQuote, isQuoteChar]
    · rw [List.singleton_append, dropWhile_cons_of_false (by decide : pws squote = false)]
      simp [dropQuote, isQuoteChar]
  have hC : (w3 ++ ('{' :: (mid ++ ('}' :: w4)))).dropWhile pws =
      '{' :: (mid ++ ('}' :: w4)) := by
    rw [dropWhile_append_of_all hw3, dropWhile_cons_of_false (by decide : pws '{' = false)]
  have hD : ('{' :: (mid ++ ('}' :: w4))).reverse.dropWhile pws =
      '}' :: (mid.reverse ++ ['{']) := by
    have hrev : ('{' :: (mid ++ ('}' :: w4))).reverse =
        w4.reverse ++ ('}' :: (mid.reverse ++ ['{'])) := by
      simp [List.reverse_cons, List.reverse_append, List.append_assoc]
    rw [hrev, dropWhile_append_of_all (fun c hc => hw4 c (List.mem_reverse.mp hc)),
      dropWhile_cons_of_false (by decide : pws '}' = false)]
  simp only [findUnwrapBody, hA, expectChar_cons_self, hB, hC, hD]
  simp [List.reverse_cons, List.reverse_append, List.reverse_reverse]

/-- The `find:` regex fails on a string whose last non-whitespace
character is not `}`: the greedy group has no closing brace with an
all-whitespace suffix, so the string is left unchanged. -/
theorem findUnwrap_tail_blocks (mid u w : List Char) (c : Char)
    (hc : pws c = false) (hcb : ¬ c = '}') (hw : ∀ d ∈ w, pws d = true) :
    findUnwrap ('f' :: 'i' :: 'n' :: 'd' :: ':' :: ' ' :: '{' ::
      (mid ++ ('}' :: (u ++ (c :: w))))) =
      'f' :: 'i' :: 'n' :: 'd' :: ':' :: ' ' :: '{' ::
        (mid ++ ('}' :: (u ++ (c :: w)))) := by
  have hdq : ∀ X : List Char, dropQuote ('f' :: X) = 'f' :: X := by
    intro X; simp [dropQuote, isQuoteChar, squote]
  have hdq2 : ∀ X : List Char, dropQuote (':' :: X) = ':' :: X := by
    intro X; simp [dropQuote, isQuoteChar, squote]
  have hrest : (' ' :: '{' :: (mid ++ ('}' :: (u ++ (c :: w))))).dropWhile pws =
      '{' :: (mid ++ ('}' :: (u ++ (c :: w)))) := by
    rw [List.dropWhile_cons]
    simp only [(by decide : pws ' ' = true), if_true]
    exact dropWhile_cons_of_false (by decide : pws '{' = false)
  have hrev : ('{' :: (mid ++ ('}' :: (u ++ (c :: w))))).reverse =
      w.reverse ++ (c :: (u.reverse ++ ('}' :: (mid.reverse ++ ['{'])))) := by
    simp [List.reverse_cons, List.reverse_append, List.append_assoc]
  have hr2 : ('{' :: (mid ++ ('}' :: (u ++ (c :: w))))).reverse.dropWhile pws =
      c :: (u.reverse ++ ('}' :: (mid.reverse ++ ['{']))) := by
    rw [hrev, dropWhile_append_of_all (fun d hd => hw d (List.mem_reverse.mp hd)),
      dropWhile_cons_of_false hc]
  have hbody : findUnwrapBody ('f' :: 'i' :: 'n' :: 'd' :: ':' :: ' ' :: '{' ::
      (mid ++ ('}' :: (u ++ (c :: w))))) = none := by
    simp only [findUnwrapBody,
      dropWhile_cons_of_false (by decide : pws 'f' = false), hdq, expectChar_cons_self,
      hdq2, dropWhile_cons_of_false (by decide : pws ':' = false), hrest, hr2]
    rw [if_neg]
    intro hand
    exact hcb (by simpa using hand.2)
  simp [findUnwrap, hbody]

/-- C6.  A string whose entirety matches the `find:` pattern — optional
whitespace, an optionally quoted key `find`, a colon, and a trailing
brace-delimited body extending to the end of the string (any characters
inside, whitespace allowed after) — is replaced by just that body
before parsing; a string whose last non-whitespace character is not the
closing brace has no whole-string match and is left unchanged; and
repairing the string `find: {"a": 1}` yields the mapping `{"a": 1}`. -/
theorem c6_find_prefix_unwrap :
    (∀ w1 q1 q2 w2 w3 mid w4 : List Char,
      (∀ c ∈ w1, pws c = true) → (∀ c ∈ w2, pws c = true) →
      (∀ c ∈ w3, pws c = true) → (∀ c ∈ w4, pws c = true) →
      (q1 = [] ∨ q1 = ['"'] ∨ q1 = [squote]) →
      (q2 = [] ∨ q2 = ['"'] ∨ q2 = [squote]) →
      findUnwrap (w1 ++ (q1 ++ ('f' :: 'i' :: 'n' :: 'd' ::
        (q2 ++ (w2 ++ (':' :: (w3 ++ ('{' :: (mid ++ ('}' :: w4)))))))))) =
        '{' :: (mid ++ ['}'])) ∧
    (∀ (mid u w : List Char) (c : Char), pws c = false → ¬ c = '}' →
      (∀ d ∈ w, pws d = true) →
      findUnwrap ('f' :: 'i' :: 'n' :: 'd' :: ':' :: ' ' :: '{' ::
        (mid ++ ('}' :: (u ++ (c :: w))))) =
        'f' :: 'i' :: 'n' :: 'd' :: ':' :: ' ' :: '{' ::
          (mid ++ ('}' :: (u ++ (c :: w))))) ∧
    fixLlmQuery (.str ("find: \x7b\"a\": 1\x7d".data)) =
      .dict [(("a".data), Value.num 1)] := by
  refine ⟨?_, findUnwrap_tail_blocks, rfl⟩
  intro w1 q1 q2 w2 w3 mid w4 hw1 hw2 hw3 hw4 hq1 hq2
  simp [findUnwrap, findUnwrapBody_whole_match w1 q1 q2 w2 w3 mid w4 hw1 hw2 hw3 hw4 hq1 hq2]

/-- C6, witness: the whole-match family at ` "find" : { x } ` with a
quoted key, and the anchoring family at `find: {a}!`. -/
theorem c6_witness :
    findUnwrap (" \"find\" : \x7b x \x7d ".data) = "\x7b x \x7d".data ∧
    findUnwrap ("find: \x7ba\x7d!".data) = "find: \x7ba\x7d!".data :=
  ⟨c6_find_prefix_unwrap.1 [' '] ['"'] ['"'] [' '] [' '] [' ', 'x', ' '] [' ']
      (by decide) (by decide) (by decide) (by decide) (Or.inr (Or.inl rfl))
      (Or.inr (Or.inl rfl)),
    c6_find_prefix_unwrap.2.1 ['a'] [] [] '!' (by decide) (by decide) (by decide)⟩

/-- A successful `expectChar` consumes exactly one character. -/
theorem expectChar_some_length {c : Char} {s t : List Char}
    (h : expectChar c s = some t) : t.length + 1 = s.length := by
  cases s with
  | nil => exact absurd h (by simp [expectChar])
  | cons d r =>
    simp only [expectChar] at h
    by_cases hd : d = c
    · rw [if_pos hd] at h
      injection h with h
      subst h
      rfl
    · rw [if_neg hd] at h
      exact absurd h (by simp)

/-- `dropQuote` never lengthens a list. -/
theorem dropQuote_length_le (s : List Char) : (dropQuote s).length ≤ s.length := by
  cases s with
  | nil => simp [dropQuote]
  | cons c cs =>
    simp only [dropQuote]
    by_cases h : isQuoteChar c = true
    · simp [h]
    · simp [h]

/-- Dropping while a predicate holds never lengthens a list. -/
theorem length_dropWhile_le' (p : Char → Bool) :
    ∀ l : List Char, (l.dropWhile p).length ≤ l.length := by
  intro l
  induction l with
  | nil => simp
  | cons c cs ih =>
    rw [List.dropWhile_cons]
    by_cases h : p c = true
    · simp only [h, if_true]
      simp
      omega
    · simp [h]

/-- Taking while a predicate holds never lengthens a list. -/
theorem length_takeWhile_le' (p : Char → Bool) :
    ∀ l : List Char, (l.takeWhile p).length ≤ l.length := by
  intro l
  induction l with
  | nil => simp
  | cons c cs ih =>
    rw [List.takeWhile_cons]
    by_cases h : p c = true
    · simp only [h, if_true]
      simp
      omega
    · simp [h]

/-- A successful `commaMatch` consumes at least one character: the rest
is strictly shorter than the input. -/
theorem commaMatch_some_length {s : List Char} {r rest : List Char}
    (h : commaMatch s = some (r, rest)) : rest.length < s.length := by
  simp only [commaMatch] at h
  split at h
  · exact absurd h (by simp)
  · rename_i cs h1
    split at h
    · exact absurd h (by simp)
    · rename_i t h2
      split at h
      · exact absurd h (by simp)
      · rename_i h3
        split at h
        · exact absurd h (by simp)
        · rename_i u h4
          split at h
          · exact absurd h (by simp)
          · rename_i h5
            split at h
            · exact absurd h (by simp)
            · rename_i h6
              injection h with h
              injection h with hr hrest
              have e1 : u.length < cs.length + 1 := by
                have a1 := expectChar_some_length h4
                have a2 : ((dropQuote (t.drop (t.takeWhile isWordChar).length)).dropWhile
                    pws).length ≤ t.length := by
                  calc ((dropQuote (t.drop (t.takeWhile isWordChar).length)).dropWhile
                        pws).length ≤
                      (dropQuote (t.drop (t.takeWhile isWordChar).length)).length :=
                        length_dropWhile_le' _ _
                    _ ≤ (t.drop (t.takeWhile isWordChar).length).length :=
                        dropQuote_length_le _
                    _ ≤ t.length := by simp
                have a3 := expectChar_some_length h2
                have a4 : (dropQuote (cs.dropWhile pws)).length ≤ cs.length := by
                  calc (dropQuote (cs.dropWhile pws)).length ≤ (cs.dropWhile pws).length :=
                      dropQuote_length_le _
                    _ ≤ cs.length := length_dropWhile_le' _ _
                omega
              have e2 : rest.length < u.length := by
                have hdr : rest.length =
                    u.length - ((u.takeWhile (fun c => ¬ c = '}')).length + 1) := by
                  rw [← hrest]
                  simp [List.length_drop]
                have hne : 0 < (u.takeWhile (fun c => ¬ c = '}')).length := by
                  cases hh : u.takeWhile (fun c => ¬ c = '}') with
                  | nil => exact absurd hh h5
                  | cons a b => simp [hh]
                have hle : (u.takeWhile (fun c => ¬ c = '}')).length ≤ u.length :=
                  length_takeWhile_le' _ _
                omega
              have e3 := expectChar_some_length h1
              omega

/-- `commaFixGo` does not depend on the fuel once the fuel covers the
input length. -/
theorem commaFixGo_eq_of_le :
    ∀ (m n : Nat) (s : List Char), s.length ≤ m → s.length ≤ n →
      commaFixGo m s = commaFixGo n s := by
  intro m
  induction m with
  | zero =>
    intro n s hm _
    have : s = [] := List.eq_nil_of_length_eq_zero (Nat.le_zero.mp hm)
    subst this
    cases n <;> rfl
  | succ m ih =>
    intro n s hm hn
    cases s with
    | nil => cases n <;> rfl
    | cons c cs =>
      cases n with
      | zero => exact absurd hn (by simp)
      | succ n =>
        simp only [commaFixGo]
        cases hcm : commaMatch (c :: cs) with
        | none =>
          dsimp only
          have hmm : cs.length ≤ m := by simp at hm; omega
          have h2 : cs.length ≤ n := by simp at hn; omega
          rw [ih n cs hmm h2]
        | some pr =>
          obtain ⟨r, rest⟩ := pr
          dsimp only
          have hlt := commaMatch_some_length hcm
          have hmm : rest.length ≤ m := by simp at hlt hm ⊢; omega
          have h2 : rest.length ≤ n := by simp at hlt hn ⊢; omega
          rw [ih n rest hmm h2]

/-- Scanning steps over a character that starts no match. -/
theorem commaFix_cons_no_brace {c : Char} (t : List Char) (hc : ¬ c = '{') :
    commaFix (c :: t) = c :: commaFix t := by
  have hnone : commaMatch (c :: t) = none := by
    simp [commaMatch, expectChar, hc]
  simp only [commaFix, List.length_cons, commaFixGo, hnone]

/-- Scanning steps over a whole prefix containing no opening brace. -/
theorem commaFix_append_no_brace :
    ∀ (pre s : List Char), '{' ∉ pre → commaFix (pre ++ s) = pre ++ commaFix s := by
  intro pre
  induction pre with
  | nil => intro s _; rfl
  | cons c cs ih =>
    intro s h
    have hc : ¬ c = '{' := fun e => h (by simp [e])
    rw [List.cons_append, commaFix_cons_no_brace _ hc, ih s (fun hm => h (by simp [hm]))]
    rfl

/-- At a successful match the scan emits the replacement and resumes
after the match. -/
theorem commaFix_cons_match {rest : List Char} {r rest2 : List Char}
    (h : commaMatch ('{' :: rest) = some (r, rest2)) :
    commaFix ('{' :: rest) = r ++ commaFix rest2 := by
  have hlt := commaMatch_some_length h
  simp only [commaFix, List.length_cons, commaFixGo, h]
  rw [commaFixGo_eq_of_le rest.length rest2.length rest2 (by simp at hlt ⊢; omega)
    (Nat.le_refl _)]

/-- A whitespace character is not a word character, a brace, or a
comma. -/
theorem pws_class {c : Char} (h : pws c = true) :
    isWordChar c = false ∧ ¬ c = '}' ∧ ¬ c = '{' ∧ ¬ c = ',' := by
  simp [pws] at h
  rcases h with ((((h | h) | h) | h) | h) | h <;> subst h <;>
    exact ⟨by decide, by decide, by decide, by decide⟩

/-- `dropQuote` leaves a list alone when it is whitespace followed by a
comma. -/
theorem dropQuote_pws_comma {w y : List Char} (hw : ∀ c ∈ w, pws c = true) :
    dropQuote (w ++ ',' :: y) = w ++ ',' :: y := by
  cases w with
  | nil => simp [dropQuote, isQuoteChar, squote]
  | cons c cs =>
    have := quote_not_pws (hw c (by simp))
    simp [dropQuote, this]

/-- Dropping a count prefix of an append. -/
theorem drop_append_succ (a b : List Char) : (a ++ b).drop (a.length + 1) = b.drop 1 := by
  induction a with
  | nil => simp
  | cons c cs ih => simp [ih]

/-- The comma-repair pattern matches at an occurrence of `{`, optional
whitespace, an optionally quoted `$`-operator token, optional
whitespace, a comma, whitespace, then a value run (starting with a
non-whitespace character and containing no `}`) up to the next closing
brace; the match is rewritten with a colon and the scan resumes after
the brace. -/
theorem commaMatch_operator
    (ws0 q1 q2 ws1 ws2 op vr rest2 : List Char) (vc : Char)
    (hw0 : ∀ c ∈ ws0, pws c = true)
    (hq1 : q1 = [] ∨ q1 = ['"'] ∨ q1 = [squote])
    (hq2 : q2 = [] ∨ q2 = ['"'] ∨ q2 = [squote])
    (hws1 : ∀ c ∈ ws1, pws c = true) (hws2 : ∀ c ∈ ws2, pws c = true)
    (hop : ¬ op = []) (hopw : ∀ c ∈ op, isWordChar c = true)
    (hvc : pws vc = false) (hval : '}' ∉ (vc :: vr)) :
    commaMatch ('{' :: (ws0 ++ (q1 ++ ('$' :: (op ++ (q2 ++ (ws1 ++ (',' ::
      (ws2 ++ ((vc :: vr) ++ ('}' :: rest2))))))))))) =
      some ('{' :: '"' :: '$' :: op ++ '"' :: ':' :: (vc :: vr) ++ ['}'], rest2) := by
  have hA : dropQuote ((ws0 ++ (q1 ++ ('$' :: (op ++ (q2 ++ (ws1 ++ (',' ::
      (ws2 ++ ((vc :: vr) ++ ('}' :: rest2)))))))))).dropWhile pws) =
      '$' :: (op ++ (q2 ++ (ws1 ++ (',' :: (ws2 ++ ((vc :: vr) ++ ('}' :: rest2))))))) := by
    rw [dropWhile_append_of_all hw0]
    rcases hq1 with h | h | h <;> subst h
    · rw [List.nil_append, dropWhile_cons_of_false (by decide : pws '$' = false)]
      simp [dropQuote, isQuoteChar, squote]
    · rw [List.singleton_append, dropWhile_cons_of_false (by decide : pws '"' = false)]
      simp [dropQuote, isQuoteChar]
    · rw [List.singleton_append, dropWhile_cons_of_false (by decide : pws squote = false)]
      simp [dropQuote, isQuoteChar]
  have hB : (op ++ (q2 ++ (ws1 ++ (',' ::
      (ws2 ++ ((vc :: vr) ++ ('}' :: rest2))))))).takeWhile isWordChar = op := by
    rw [takeWhile_append_of_all hopw]
    have htail : (q2 ++ (ws1 ++ (',' ::
        (ws2 ++ ((vc :: vr) ++ ('}' :: rest2)))))).takeWhile isWordChar = [] := by
      rcases hq2 with h | h | h <;> subst h
      · rw [List.nil_append]
        cases ws1 with
        | nil => exact takeWhile_cons_of_false (by decide)
        | cons c cs =>
          rw [List.cons_append]
          exact takeWhile_cons_of_false (pws_class (hws1 c (by simp))).1
      · rw [List.singleton_append]
        exact takeWhile_cons_of_false (by decide)
      · rw [List.singleton_append]
        exact takeWhile_cons_of_false (by decide)
    rw [htail, List.append_nil]
  have hD : (dropQuote ((q2 ++ (ws1 ++ (',' ::
      (ws2 ++ ((vc :: vr) ++ ('}' :: rest2)))))))).dropWhile pws =
      ',' :: (ws2 ++ ((vc :: vr) ++ ('}' :: rest2))) := by
    rcases hq2 with h | h | h <;> subst h
    · rw [List.nil_append, dropQuote_pws_comma hws1, dropWhile_append_of_all hws1,
        dropWhile_cons_of_false (by decide : pws ',' = false)]
    · rw [List.singleton_append,
        show dropQuote ('"' :: (ws1 ++ (',' :: (ws2 ++ ((vc :: vr) ++ ('}' :: rest2)))))) =
          ws1 ++ (',' :: (ws2 ++ ((vc :: vr) ++ ('}' :: rest2)))) from by
            simp [dropQuote, isQuoteChar],
        dropWhile_append_of_all hws1, dropWhile_cons_of_false (by decide : pws ',' = false)]
    · rw [List.singleton_append,
        show dropQuote (squote :: (ws1 ++ (',' :: (ws2 ++ ((vc :: vr) ++ ('}' :: rest2)))))) =
          ws1 ++ (',' :: (ws2 ++ ((vc :: vr) ++ ('}' :: rest2)))) from by
            simp [dropQuote, isQuoteChar],
        dropWhile_append_of_all hws1, dropWhile_cons_of_false (by decide : pws ',' = false)]
  have hE : (ws2 ++ ((vc :: vr) ++ ('}' :: rest2))).takeWhile (fun c => ¬ c = '}') =
      ws2 ++ (vc :: vr) := by
    rw [takeWhile_append_of_all (fun c hc => by
      simp [(pws_class (hws2 c hc)).2.1])]
    rw [takeWhile_append_of_all (fun c hc => by
      simp [show ¬ c = '}' from fun e => hval (e ▸ hc)])]
    rw [takeWhile_cons_of_false (by simp)]
    rw [List.append_nil]
  have hF : ¬ (ws2 ++ (vc :: vr)) = [] := by simp
  have hG : ¬ ((ws2 ++ (vc :: vr)).length = (ws2 ++ ((vc :: vr) ++ ('}' :: rest2))).length) := by
    simp
  have hH : (ws2 ++ (vc :: vr)).dropWhile pws = vc :: vr := by
    rw [dropWhile_append_of_all hws2, dropWhile_cons_of_false hvc]
  have hg3 : (if (ws2 ++ (vc :: vr)).dropWhile pws = [] then
      [(ws2 ++ (vc :: vr)).getLastD ' '] else (ws2 ++ (vc :: vr)).dropWhile pws) =
      vc :: vr := by
    rw [hH]
    simp
  have hRest : (ws2 ++ ((vc :: vr) ++ ('}' :: rest2))).drop
      ((ws2 ++ (vc :: vr)).length + 1) = rest2 := by
    rw [show ws2 ++ ((vc :: vr) ++ ('}' :: rest2)) =
      (ws2 ++ (vc :: vr)) ++ ('}' :: rest2) from by simp [List.append_assoc]]
    rw [drop_append_succ]
    rfl
  simp only [commaMatch, expectChar_cons_self, hA, hB, hD, hE, if_neg hop, if_neg hF,
    if_neg hG, hg3, List.drop_left, hRest]

/-- C7.  The comma-without-colon repair: scanning left to right, at
every occurrence of an opening brace, an optionally quoted token
beginning with `$` and word characters, a comma, and a value run up to
the next closing brace, the scan inserts a colon between the quoted
operator and the value and continues after the brace (so every further
occurrence is rewritten too); positions before the occurrence are
emitted unchanged.  In particular repairing `{"price": {$lt, 4.5}}`
yields the mapping `{"price": {"$lt": 4.5}}`. -/
theorem c7_comma_colon_repair :
    (∀ (pre ws0 q1 q2 ws1 ws2 op vr rest2 : List Char) (vc : Char),
      '{' ∉ pre →
      (∀ c ∈ ws0, pws c = true) →
      (q1 = [] ∨ q1 = ['"'] ∨ q1 = [squote]) →
      (q2 = [] ∨ q2 = ['"'] ∨ q2 = [squote]) →
      (∀ c ∈ ws1, pws c = true) → (∀ c ∈ ws2, pws c = true) →
      ¬ op = [] → (∀ c ∈ op, isWordChar c = true) →
      pws vc = false → '}' ∉ (vc :: vr) →
      commaFix (pre ++ ('{' :: (ws0 ++ (q1 ++ ('$' :: (op ++ (q2 ++ (ws1 ++ (',' ::
        (ws2 ++ ((vc :: vr) ++ ('}' :: rest2)))))))))))) =
        pre ++ (('{' :: '"' :: '$' :: op ++ '"' :: ':' :: (vc :: vr) ++ ['}']) ++
          commaFix rest2)) ∧
    fixLlmQuery (.str ("\x7b\"price\": \x7b$lt, 4.5\x7d\x7d".data)) =
      .dict [(("price".data), Value.dict [(("$lt".data), Value.num (mkRat 9 2))])] := by
  refine ⟨?_, rfl⟩
  intro pre ws0 q1 q2 ws1 ws2 op vr rest2 vc hpre hw0 hq1 hq2 hws1 hws2 hop hopw hvc hval
  rw [commaFix_append_no_brace pre _ hpre,
    commaFix_cons_match (commaMatch_operator ws0 q1 q2 ws1 ws2 op vr rest2 vc
      hw0 hq1 hq2 hws1 hws2 hop hopw hvc hval)]

/-- C7, witness: the repair family at the occurrence `{$lt, 4.5}`
embedded after a brace-free prefix. -/
theorem c7_witness :
    commaFix ("price: \x7b$lt, 4.5\x7d".data) = "price: \x7b\"$lt\":4.5\x7d".data :=
  c7_comma_colon_repair.1 ("price: ".data) [] [] [] [] [' '] ("lt".data) (".5".data) [] '4'
    (by decide) (by decide) (Or.inl rfl) (Or.inl rfl) (by decide) (by decide)
    (by decide) (by decide) (by decide) (by decide)

/-! ### Newline flattening commutes with the rewrite pipeline

The character map `nlToSpace` preserves every character class and
literal character the three regex models inspect, so it can be pushed
through each of them; since the pipeline ends by applying the map
anyway, applying it up front does not change the pipeline's output. -/

/-- `nlToSpace` preserves regex whitespace. -/
theorem pws_nlToSpace (c : Char) : pws (nlToSpace c) = pws c := by
  by_cases h : c = '\n'
  · subst h; rfl
  · simp [nlToSpace, h]

/-- `nlToSpace` preserves word characters. -/
theorem isWordChar_nlToSpace (c : Char) : isWordChar (nlToSpace c) = isWordChar c := by
  by_cases h : c = '\n'
  · subst h; rfl
  · simp [nlToSpace, h]

/-- `nlToSpace` preserves quote characters. -/
theorem isQuoteChar_nlToSpace (c : Char) : isQuoteChar (nlToSpace c) = isQuoteChar c := by
  by_cases h : c = '\n'
  · subst h; rfl
  · simp [nlToSpace, h]

/-- `nlToSpace` preserves equality with any character other than the
newline and the space. -/
theorem nlToSpace_eq_rigid {a : Char} (ha1 : ¬ a = '\n') (ha2 : ¬ a = ' ') (c : Char) :
    (nlToSpace c = a) = (c = a) := by
  by_cases h : c = '\n'
  · subst h
    show (' ' = a) = ('\n' = a)
    apply propext
    constructor
    · intro e; exact absurd e.symm ha2
    · intro e; exact absurd e.symm ha1
  · simp [nlToSpace, h]

/-- `nlToSpace` is idempotent. -/
theorem nlToSpace_idem : nlToSpace ∘ nlToSpace = nlToSpace := by
  funext c
  by_cases h : c = '\n'
  · subst h; rfl
  · simp [nlToSpace, h]

/-- Composing the whitespace class with the map gives the class. -/
theorem pws_comp : pws ∘ nlToSpace = pws := funext pws_nlToSpace

/-- Composing the word class with the map gives the class. -/
theorem isWordChar_comp : isWordChar ∘ nlToSpace = isWordChar := funext isWordChar_nlToSpace

/-- `dropWhile pws` commutes with the map. -/
theorem dropWhile_pws_map (l : List Char) :
    (l.map nlToSpace).dropWhile pws = (l.dropWhile pws).map nlToSpace := by
  rw [List.dropWhile_map, pws_comp]

/-- `takeWhile pws` commutes with the map. -/
theorem takeWhile_pws_map (l : List Char) :
    (l.map nlToSpace).takeWhile pws = (l.takeWhile pws).map nlToSpace := by
  rw [List.takeWhile_map, pws_comp]

/-- `dropQuote` commutes with the map. -/
theorem dropQuote_map (l : List Char) :
    dropQuote (l.map nlToSpace) = (dropQuote l).map nlToSpace := by
  cases l with
  | nil => rfl
  | cons c cs =>
    simp only [List.map_cons, dropQuote, isQuoteChar_nlToSpace]
    by_cases h : isQuoteChar c = true
    · simp [h]
    · simp [h]

/-- `expectChar` at a rigid character commutes with the map. -/
theorem expectChar_map {a : Char} (ha1 : ¬ a = '\n') (ha2 : ¬ a = ' ') (l : List Char) :
    expectChar a (l.map nlToSpace) = (expectChar a l).map (List.map nlToSpace) := by
  cases l with
  | nil => rfl
  | cons c cs =>
    simp only [List.map_cons, expectChar, nlToSpace_eq_rigid ha1 ha2]
    by_cases h : c = a
    · simp [h]
    · simp [h]

/-- `headD '-'`-style rigid-character tests transport along the map. -/
theorem headD_map_rigid {a : Char} (ha1 : ¬ a = '\n') (ha2 : ¬ a = ' ') (l : List Char) :
    ((l.map nlToSpace).headD ' ' = a) = (l.headD ' ' = a) := by
  cases l with
  | nil => rfl
  | cons c cs => simp only [List.map_cons, List.headD_cons, nlToSpace_eq_rigid ha1 ha2]

/-- `getLastD ' '` commutes with the map. -/
theorem getLastD_map (l : List Char) :
    (l.map nlToSpace).getLastD ' ' = nlToSpace (l.getLastD ' ') := by
  induction l with
  | nil => rfl
  | cons c cs ih =>
    cases cs with
    | nil => rfl
    | cons d ds => simpa using ih

/-- The `find:` regex model commutes with the map. -/
theorem findUnwrapBody_map (s : List Char) :
    findUnwrapBody (s.map nlToSpace) = (findUnwrapBody s).map (List.map nlToSpace) := by
  simp only [findUnwrapBody, dropWhile_pws_map, dropQuote_map,
    expectChar_map (by decide : ¬ 'f' = '\n') (by decide : ¬ 'f' = ' ')]
  cases expectChar 'f' (dropQuote (s.dropWhile pws)) with
  | none => rfl
  | some t1 =>
    simp only [Option.map_some']
    simp only [expectChar_map (by decide : ¬ 'i' = '\n') (by decide : ¬ 'i' = ' ')]
    cases expectChar 'i' t1 with
    | none => rfl
    | some t2 =>
      simp only [Option.map_some']
      simp only [expectChar_map (by decide : ¬ 'n' = '\n') (by decide : ¬ 'n' = ' ')]
      cases expectChar 'n' t2 with
      | none => rfl
      | some t3 =>
        simp only [Option.map_some']
        simp only [expectChar_map (by decide : ¬ 'd' = '\n') (by decide : ¬ 'd' = ' ')]
        cases expectChar 'd' t3 with
        | none => rfl
        | some s2 =>
          simp only [Option.map_some']
          simp only [dropQuote_map, dropWhile_pws_map,
            expectChar_map (by decide : ¬ ':' = '\n') (by decide : ¬ ':' = ' ')]
          cases expectChar ':' ((dropQuote s2).dropWhile pws) with
          | none => rfl
          | some s4 =>
            simp only [Option.map_some']
            rw [show (s4.map nlToSpace).dropWhile pws = (s4.dropWhile pws).map nlToSpace from
              dropWhile_pws_map s4]
            rw [show ((s4.dropWhile pws).map nlToSpace).reverse =
              (s4.dropWhile pws).reverse.map nlToSpace from (List.map_reverse _ _).symm]
            rw [dropWhile_pws_map]
            simp only [headD_map_rigid (by decide : ¬ '{' = '\n') (by decide : ¬ '{' = ' '),
              headD_map_rigid (by decide : ¬ '}' = '\n') (by decide : ¬ '}' = ' ')]
            by_cases hcond : (s4.dropWhile pws).headD ' ' = '{' ∧
                ((s4.dropWhile pws).reverse.dropWhile pws).headD ' ' = '}'
            · rw [if_pos hcond, if_pos hcond, Option.map_some', List.map_reverse]
            · rw [if_neg hcond, if_neg hcond]
              rfl

/-- The closing-brace test transports along the map. -/
theorem rbrace_comp :
    (fun c => (¬ c = '}' : Bool)) ∘ nlToSpace = fun c => (¬ c = '}' : Bool) := by
  funext c
  simp only [Function.comp_apply]
  simp only [nlToSpace_eq_rigid (by decide : ¬ '}' = '\n') (by decide : ¬ '}' = ' ')]

/-- `takeWhile` of the closing-brace test commutes with the map. -/
theorem takeWhile_rbrace_map (l : List Char) :
    (l.map nlToSpace).takeWhile (fun c => ¬ c = '}') =
      (l.takeWhile (fun c => ¬ c = '}')).map nlToSpace := by
  rw [List.takeWhile_map, rbrace_comp]

/-- `takeWhile isWordChar` commutes with the map. -/
theorem takeWhile_word_map (l : List Char) :
    (l.map nlToSpace).takeWhile isWordChar = (l.takeWhile isWordChar).map nlToSpace := by
  rw [List.takeWhile_map, isWordChar_comp]

/-- The comma-repair matcher commutes with the map. -/
theorem commaMatch_map (s : List Char) :
    commaMatch (s.map nlToSpace) =
      (commaMatch s).map (fun p => (p.1.map nlToSpace, p.2.map nlToSpace)) := by
  simp only [commaMatch,
    expectChar_map (by decide : ¬ '{' = '\n') (by decide : ¬ '{' = ' ')]
  cases expectChar '{' s with
  | none => rfl
  | some cs =>
    simp only [Option.map_some', dropWhile_pws_map, dropQuote_map,
      expectChar_map (by decide : ¬ '$' = '\n') (by decide : ¬ '$' = ' ')]
    cases expectChar '$' (dropQuote (cs.dropWhile pws)) with
    | none => rfl
    | some t =>
      simp only [Option.map_some', takeWhile_word_map, List.map_eq_nil_iff, List.length_map]
      by_cases hop : t.takeWhile isWordChar = []
      · rw [if_pos hop, if_pos hop]
        rfl
      · rw [if_neg hop, if_neg hop]
        rw [show (t.map nlToSpace).drop (t.takeWhile isWordChar).length =
          (t.drop (t.takeWhile isWordChar).length).map nlToSpace from
            (List.map_drop _ _ _).symm]
        simp only [dropQuote_map, dropWhile_pws_map,
          expectChar_map (by decide : ¬ ',' = '\n') (by decide : ¬ ',' = ' ')]
        cases expectChar ','
            ((dropQuote (t.drop (t.takeWhile isWordChar).length)).dropWhile pws) with
        | none => rfl
        | some u =>
          simp only [Option.map_some', takeWhile_rbrace_map, List.map_eq_nil_iff,
            List.length_map]
          by_cases hv : u.takeWhile (fun c => ¬ c = '}') = []
          · rw [if_pos hv, if_pos hv]
            rfl
          · rw [if_neg hv, if_neg hv]
            by_cases hlen : (u.takeWhile (fun c => ¬ c = '}')).length = u.length
            · rw [if_pos hlen, if_pos hlen]
              rfl
            · rw [if_neg hlen, if_neg hlen]
              simp only [Option.map_some', dropWhile_pws_map, List.map_eq_nil_iff]
              by_cases hg : (u.takeWhile (fun c => ¬ c = '}')).dropWhile pws = []
              · rw [if_pos hg, if_pos hg]
                rw [getLastD_map]
                rw [show (u.map nlToSpace).drop
                    ((u.takeWhile (fun c => ¬ c = '}')).length + 1) =
                  (u.drop ((u.takeWhile (fun c => ¬ c = '}')).length + 1)).map nlToSpace from
                    (List.map_drop _ _ _).symm]
                simp [List.map_append, nlToSpace]
              · rw [if_neg hg, if_neg hg]
                rw [show (u.map nlToSpace).drop
                    ((u.takeWhile (fun c => ¬ c = '}')).length + 1) =
                  (u.drop ((u.takeWhile (fun c => ¬ c = '}')).length + 1)).map nlToSpace from
                    (List.map_drop _ _ _).symm]
                simp [List.map_append, nlToSpace]

/-- The comma-repair scan commutes with the map at every fuel. -/
theorem commaFixGo_map : ∀ (n : Nat) (s : List Char),
    commaFixGo n (s.map nlToSpace) = (commaFixGo n s).map nlToSpace := by
  intro n
  induction n with
  | zero => intro s; rfl
  | succ n ih =>
    intro s
    cases s with
    | nil => rfl
    | cons c cs =>
      simp only [List.map_cons, commaFixGo]
      rw [show commaMatch (nlToSpace c :: cs.map nlToSpace) =
        (commaMatch (c :: cs)).map (fun p => (p.1.map nlToSpace, p.2.map nlToSpace)) from
          commaMatch_map (c :: cs)]
      cases commaMatch (c :: cs) with
      | none =>
        simp only [Option.map_none']
        simp only [List.map_cons]
        rw [ih]
      | some pr =>
        obtain ⟨r, rest⟩ := pr
        simp only [Option.map_some']
        rw [ih, List.map_append]

/-- The comma repair commutes with the map. -/
theorem commaFix_map (s : List Char) :
    commaFix (s.map nlToSpace) = (commaFix s).map nlToSpace := by
  simp only [commaFix, List.length_map]
  exact commaFixGo_map s.length s

/-- The trailing-comma scan commutes with the map at every fuel. -/
theorem stripTrailingGo_map : ∀ (n : Nat) (s : List Char),
    stripTrailingGo n (s.map nlToSpace) = (stripTrailingGo n s).map nlToSpace := by
  intro n
  induction n with
  | zero => intro s; rfl
  | succ n ih =>
    intro s
    cases s with
    | nil => rfl
    | cons c cs =>
      simp only [List.map_cons, stripTrailingGo,
        nlToSpace_eq_rigid (by decide : ¬ ',' = '\n') (by decide : ¬ ',' = ' ')]
      by_cases hc : c = ','
      · rw [if_pos hc, if_pos hc]
        simp only [takeWhile_pws_map, List.length_map]
        rw [show (cs.map nlToSpace).drop (cs.takeWhile pws).length =
          (cs.drop (cs.takeWhile pws).length).map nlToSpace from (List.map_drop _ _ _).symm]
        cases cs.drop (cs.takeWhile pws).length with
        | nil =>
          simp only [List.map_nil]
          rw [ih]
          rfl
        | cons b rest =>
          simp only [List.map_cons]
          simp only [nlToSpace_eq_rigid (by decide : ¬ '}' = '\n') (by decide : ¬ '}' = ' '),
            nlToSpace_eq_rigid (by decide : ¬ ']' = '\n') (by decide : ¬ ']' = ' ')]
          by_cases hb : (b = '}' || b = ']') = true
          · rw [if_pos hb, if_pos hb]
            rw [ih, List.map_append]
            rfl
          · rw [if_neg hb, if_neg hb]
            rw [ih]
            rfl
      · rw [if_neg hc, if_neg hc]
        rw [ih]
        rfl

/-- The trailing-comma removal commutes with the map. -/
theorem stripTrailingCommas_map (s : List Char) :
    stripTrailingCommas (s.map nlToSpace) = (stripTrailingCommas s).map nlToSpace := by
  simp only [stripTrailingCommas, List.length_map]
  exact stripTrailingGo_map s.length s

/-- The `find:` unwrap commutes with the map. -/
theorem findUnwrap_map (s : List Char) :
    findUnwrap (s.map nlToSpace) = (findUnwrap s).map nlToSpace := by
  simp only [findUnwrap, findUnwrapBody_map]
  cases findUnwrapBody s with
  | none => rfl
  | some b => rfl

/-- Flattening newlines first does not change the rewritten string: the
pipeline ends with the same flattening. -/
theorem repairString_replaceNewlines (s : List Char) :
    repairString (replaceNewlines s) = repairString s := by
  simp only [repairString, replaceNewlines, findUnwrap_map, commaFix_map,
    stripTrailingCommas_map, List.map_map, nlToSpace_idem]

/-- C8.  Repairing any string yields exactly the same result as
repairing its newline-free equivalent (each embedded newline replaced
by one space): the rewrite pipeline treats the newline and the space
identically in every character class it inspects, and its final step is
precisely this replacement.  In particular, for an otherwise-valid
object with embedded newlines, both repairs parse the same flattened
text and return the same mapping. -/
theorem c8_newline_invariance (s : List Char) :
    fixLlmQuery (.str (replaceNewlines s)) = fixLlmQuery (.str s) := by
  simp only [fixLlmQuery, repairString_replaceNewlines]

/-- `findTriple` finds the boundary occurrence after a backtick-free
prefix. -/
theorem findTriple_no_bt : ∀ (b rest : List Char), '`' ∉ b →
    findTriple (b ++ '`' :: '`' :: '`' :: rest) = some b.length := by
  intro b
  induction b with
  | nil =>
    intro rest _
    simp [findTriple, List.take]
  | cons c cs ih =>
    intro rest h
    have hc : ¬ c = '`' := fun e => h (by simp [e])
    simp only [List.cons_append, findTriple, List.append_eq]
    rw [if_neg (fun hand => hc hand.1)]
    rw [ih rest (fun hm => h (by simp [hm]))]
    rfl

/-- `fenceSearch` skips a backtick-free prefix. -/
theorem fenceSearch_append_no_bt : ∀ (pre s : List Char), '`' ∉ pre →
    fenceSearch (pre ++ s) = fenceSearch s := by
  intro pre
  induction pre with
  | nil => intro s _; rfl
  | cons c cs ih =>
    intro s h
    have hc : ¬ c = '`' := fun e => h (by simp [e])
    simp only [List.cons_append, fenceSearch]
    rw [if_neg (fun hand => hc hand.1)]
    exact ih s (fun hm => h (by simp [hm]))

/-- `fenceSearch` finds nothing in a backtick-free string. -/
theorem fenceSearch_none_of_no_bt (s : List Char) (h : '`' ∉ s) :
    fenceSearch s = none := by
  have := fenceSearch_append_no_bt s [] h
  simpa using this

/-- A list whose members all satisfy the predicate is dropped whole. -/
theorem dropWhile_all {p : Char → Bool} {l : List Char}
    (h : ∀ c ∈ l, p c = true) : l.dropWhile p = [] := by
  have := dropWhile_append_of_all (r := []) h
  simpa using this

/-- The fence pattern applied after the opening backticks and the
`json` tag: the greedy `\s*` swallows the leading whitespace of the
body, the lazy group collects the rest of the body, and the closing
fence ends the match. -/
theorem fenceCore_body (bw br post : List Char) (bc : Char)
    (hbw : ∀ c ∈ bw, pws c = true) (hbc : pws bc = false) (hbr : '`' ∉ br) :
    fenceCore (bw ++ (bc :: (br ++ '`' :: '`' :: '`' :: post))) = some (bc :: br) := by
  have hw : (bw ++ (bc :: (br ++ '`' :: '`' :: '`' :: post))).takeWhile pws = bw := by
    rw [takeWhile_append_of_all hbw, takeWhile_cons_of_false hbc, List.append_nil]
  have hdrop1 : (bw ++ (bc :: (br ++ '`' :: '`' :: '`' :: post))).drop (bw.length + 1) =
      br ++ '`' :: '`' :: '`' :: post := by
    rw [drop_append_succ]
    rfl
  have hdrop0 : (bw ++ (bc :: (br ++ '`' :: '`' :: '`' :: post))).drop bw.length =
      bc :: (br ++ '`' :: '`' :: '`' :: post) := by
    rw [show (bw ++ (bc :: (br ++ '`' :: '`' :: '`' :: post))).drop bw.length =
      ((bw ++ (bc :: (br ++ '`' :: '`' :: '`' :: post))).drop (bw.length + 0)) from rfl]
    rw [List.drop_append]
    rfl
  have htake : (bc :: (br ++ '`' :: '`' :: '`' :: post)).take (br.length + 1) =
      bc :: br := by
    simp only [List.take_succ_cons]
    congr 1
    exact List.take_left br _
  simp only [fenceCore, hw, hdrop1, findTriple_no_bt br _ hbr, hdrop0, htake]

/-- `fenceFrom` with the `json` tag present. -/
theorem fenceFrom_json {g : List Char} (X : List Char) (hX : fenceCore X = some g) :
    fenceFrom ('j' :: 's' :: 'o' :: 'n' :: X) = some g := by
  simp only [fenceFrom]
  rw [if_pos (show List.take 4 ('j' :: 's' :: 'o' :: 'n' :: X) = ['j', 's', 'o', 'n'] from rfl)]
  rw [show ('j' :: 's' :: 'o' :: 'n' :: X).drop 4 = X from rfl, hX]

/-- `fenceFrom` without the `json` tag. -/
theorem fenceFrom_untagged {g : List Char} (X : List Char)
    (htag : ¬ X.take 4 = ['j', 's', 'o', 'n']) (hX : fenceCore X = some g) :
    fenceFrom X = some g := by
  simp only [fenceFrom]
  rw [if_neg htag, hX]

/-- `fenceSearch` at an opening fence with a successful body match. -/
theorem fenceSearch_open {g : List Char} (R : List Char) (hR : fenceFrom R = some g) :
    fenceSearch ('`' :: '`' :: '`' :: R) = some g := by
  simp only [fenceSearch]
  rw [if_pos (by simp [List.take])]
  rw [show (('`' :: '`' :: R) : List Char).drop 2 = R from rfl, hR]

/-- The brace fallback on a text with a first `{`, a nonempty middle,
and a last `}`. -/
theorem braceExtract_span (a mid b : List Char)
    (ha : '{' ∉ a) (hb : '}' ∉ b) (hmid : ¬ mid = []) :
    braceExtract (a ++ ('{' :: (mid ++ ('}' :: b)))) = some ('{' :: (mid ++ ['}'])) := by
  have h1 : (a ++ ('{' :: (mid ++ ('}' :: b)))).dropWhile (fun c => ¬ c = '{') =
      '{' :: (mid ++ ('}' :: b)) := by
    rw [dropWhile_append_of_all (fun c hc => by
      simp [show ¬ c = '{' from fun e => ha (e ▸ hc)])]
    exact dropWhile_cons_of_false (by simp)
  have h2 : ('{' :: (mid ++ ('}' :: b))).reverse =
      b.reverse ++ ('}' :: (mid.reverse ++ ['{'])) := by
    simp [List.reverse_cons, List.reverse_append, List.append_assoc]
  have h3 : ('{' :: (mid ++ ('}' :: b))).reverse.dropWhile (fun c => ¬ c = '}') =
      '}' :: (mid.reverse ++ ['{']) := by
    rw [h2, dropWhile_append_of_all (fun c hc => by
      simp [show ¬ c = '}' from fun e => hb (e ▸ (List.mem_reverse.mp hc))])]
    exact dropWhile_cons_of_false (by simp)
  have h4 : (('}' :: (mid.reverse ++ ['{'])) : List Char).reverse =
      '{' :: (mid ++ ['}']) := by
    simp [List.reverse_cons, List.reverse_append, List.reverse_reverse]
  simp only [braceExtract, h1, h3, h4]
  rw [if_pos]
  cases mid with
  | nil => exact absurd rfl hmid
  | cons x xs => simp
    
/-- The brace fallback fails on a brace-free text. -/
theorem braceExtract_none (s : List Char) (h : '{' ∉ s) : braceExtract s = none := by
  have h1 : s.dropWhile (fun c => ¬ c = '{') = [] :=
    dropWhile_all (fun c hc => by simp [show ¬ c = '{' from fun e => h (e ▸ hc)])
  simp only [braceExtract, h1]
  rfl

/-- C9, counterexample.  The claim says a fenced block's interior is
yielded verbatim.  On the response made of an opening fence, the
interior ` x` and a closing fence, the extractor yields `x`: the greedy
`\s*` after the optional tag strips the interior's leading whitespace,
so the yield is not verbatim. -/
theorem c9_counterexample :
    extractResponse ("``` x```".data) = "x".data ∧ ¬ ("x".data = " x".data) :=
  ⟨rfl, by decide⟩

/-- C9, amended.  The extractor: (1) on a fenced block (tagged `json`
or untagged) yields the block's interior with the tag and any
whitespace immediately following the opening fence removed, the
remainder verbatim; (2) otherwise, on a text whose first `{` is
followed by at least one character and a later last `}`, yields the
span from that first `{` to the last `}`; (3) otherwise yields the raw
text unchanged.  It is a total function, so no exception escapes. -/
theorem c9_amended_extractor :
    (∀ (pre bw br post : List Char) (bc : Char), '`' ∉ pre →
      (∀ c ∈ bw, pws c = true) → pws bc = false → '`' ∉ br →
      extractResponse (pre ++ ('`' :: '`' :: '`' :: 'j' :: 's' :: 'o' :: 'n' ::
        (bw ++ (bc :: (br ++ '`' :: '`' :: '`' :: post))))) = bc :: br) ∧
    (∀ (pre bw br post : List Char) (bc : Char), '`' ∉ pre →
      (∀ c ∈ bw, pws c = true) → pws bc = false → '`' ∉ br →
      ¬ (bw ++ (bc :: (br ++ '`' :: '`' :: '`' :: post))).take 4 = ['j', 's', 'o', 'n'] →
      extractResponse (pre ++ ('`' :: '`' :: '`' ::
        (bw ++ (bc :: (br ++ '`' :: '`' :: '`' :: post))))) = bc :: br) ∧
    (∀ (a mid b : List Char), '`' ∉ a → '`' ∉ mid → '`' ∉ b →
      '{' ∉ a → '}' ∉ b → ¬ mid = [] →
      extractResponse (a ++ ('{' :: (mid ++ ('}' :: b)))) = '{' :: (mid ++ ['}'])) ∧
    (∀ s : List Char, '`' ∉ s → '{' ∉ s → extractResponse s = s) ∧
    extractResponse ("```json\n\x7b\"a\": 1\x7d\n```".data) = "\x7b\"a\": 1\x7d\n".data := by
  refine ⟨?_, ?_, ?_, ?_, rfl⟩
  · intro pre bw br post bc hpre hbw hbc hbr
    have hf : fenceSearch (pre ++ ('`' :: '`' :: '`' :: 'j' :: 's' :: 'o' :: 'n' ::
        (bw ++ (bc :: (br ++ '`' :: '`' :: '`' :: post))))) = some (bc :: br) := by
      rw [fenceSearch_append_no_bt pre _ hpre]
      exact fenceSearch_open _ (fenceFrom_json _ (fenceCore_body bw br post bc hbw hbc hbr))
    simp only [extractResponse, hf]
  · intro pre bw br post bc hpre hbw hbc hbr htag
    have hf : fenceSearch (pre ++ ('`' :: '`' :: '`' ::
        (bw ++ (bc :: (br ++ '`' :: '`' :: '`' :: post))))) = some (bc :: br) := by
      rw [fenceSearch_append_no_bt pre _ hpre]
      exact fenceSearch_open _
        (fenceFrom_untagged _ htag (fenceCore_body bw br post bc hbw hbc hbr))
    simp only [extractResponse, hf]
  · intro a mid b hba hbm hbb ha hb hmid
    have hnb : '`' ∉ (a ++ ('{' :: (mid ++ ('}' :: b)))) := by
      intro hm
      simp only [List.mem_append, List.mem_cons] at hm
      rcases hm with hm | hm | hm | hm | hm
      · exact hba hm
      · exact absurd hm (by decide)
      · exact hbm hm
      · exact absurd hm (by decide)
      · exact hbb hm
    simp only [extractResponse, fenceSearch_none_of_no_bt _ hnb,
      braceExtract_span a mid b ha hb hmid]
  · intro s hbt hbr
    simp only [extractResponse, fenceSearch_none_of_no_bt s hbt, braceExtract_none s hbr]

/-- C9, witness: the amended fence clause at the end-to-end response
three-backticks, `json`, a newline, an object, a newline, closing
fence; the interior is yielded with the tag and the leading newline
stripped and the trailing newline kept. -/
theorem c9_witness :
    extractResponse ("```json\n\x7b\"a\": 1\x7d\n```".data) = "\x7b\"a\": 1\x7d\n".data :=
  c9_amended_extractor.1 [] ['\n'] ("\"a\": 1\x7d\n".data) [] '{'
    (by decide) (by decide) (by decide) (by decide)
